import Mathlib

/-!
Verification of the golucene block-tree terms reader
(`index/BlockTreeTermsReader` Go port: `BlockTreeTermsReader`,
`FieldReader`, `SegmentTermsEnum`, `segmentTermsEnumFrame`).

Byte strings are modelled as `List Nat` (each element a byte value),
file contents likewise.  Go's three failure modes are kept apart:
a returned `error` value (`GoRes.goerr`), a runtime panic
(`GoRes.panic msg`, carrying the panic message), and normal return
(`GoRes.ok`).  Machine integers are modelled as `Int`/`Nat`; the one
place the Go code relies on fixed-width arithmetic — `byte`
subtraction, which wraps modulo 256 and is then widened to a
non-negative `int` — is modelled with an explicit `% 256`.
-/

/-- Go `error` values produced by the reader.  The constructors mirror the
`errors.New(fmt.Sprintf(...))` messages of the source and carry the same
data the formatted message interpolates. -/
inductive GoErr where
  /-- source: "invalid docCount: %v maxDoc: %v (resource=%v)" -/
  | invalidDocCount (docCount maxDoc : Int)
  /-- source: "invalid sumDocFreq: %v docCount: %v (resource=%v)" -/
  | invalidSumDocFreq (sumDocFreq docCount : Int)
  /-- source: "invalid sumTotalTermFreq: %v sumDocFreq: %v (resource=%v)" -/
  | invalidSumTotalTermFreq (sumTotalTermFreq sumDocFreq : Int)
  /-- source: "duplicate field: %v (resource=%v)" -/
  | duplicateField (field : String)
  /-- an underlying byte-stream read failed (end of input) -/
  | readPastEOF
  deriving Repr, DecidableEq

/-- Outcome of a Go function: normal return, returned `error`, or panic. -/
inductive GoRes (α : Type) where
  | ok (a : α)
  | goerr (e : GoErr)
  | panic (msg : String)
  deriving Repr, DecidableEq

/-- `SeekStatus` values (`SEEK_STATUS_END`, `SEEK_STATUS_FOUND`,
`SEEK_STATUS_NOT_FOUND`); the constants are referenced by the source but
declared in a part of the package outside the excerpt. -/
inductive SeekStatus where
  | END
  | FOUND
  | NOT_FOUND
  deriving Repr, DecidableEq

/-- Observable events of one `SeekExact` call, used to state its
frame-effect contract: each read of the `tim` input, each invocation of
`loadBlock` / `scanToTerm`, and the fast not-found return. -/
inductive SeekEvent where
  | timRead
  | loadBlockCall
  | scanToTermCall
  | fastNotFound
  deriving Repr, DecidableEq

-- Output-flag constants (source `lucene42_test.go` lines 48-50).
def BTT_OUTPUT_FLAGS_NUM_BITS : Nat := 2
def BTT_OUTPUT_FLAG_IS_FLOOR : Nat := 1
def BTT_OUTPUT_FLAG_HAS_TERMS : Nat := 2

/-- Modelled from the spec: variable-length integer decoding used by the
`store` package's `ByteArrayDataInput`/`IndexInput` (not in the excerpt):
7 payload bits per byte, most significant bit = continuation, first byte
least significant.  Returns the value and the number of bytes consumed,
or `none` when the input ends (or the width bound `fuel` is exceeded,
5 bytes for vInt and 9 for vLong). -/
def readVar : Nat → List Nat → Option (Nat × Nat)
  | _, [] => none
  | 0, _ :: _ => none
  | fuel + 1, b :: rest =>
    if b < 128 then some (b, 1)
    else
      match readVar fuel rest with
      | none => none
      | some (v, n) => some (b % 128 + 128 * v, n + 1)

/-- Modelled from the spec: a positioned view of an in-memory byte array
(`store.ByteArrayDataInput`, not in the excerpt). -/
structure ByteArrayDataInput where
  bytes : List Nat
  pos : Nat
  deriving Repr, DecidableEq

/-- Modelled from the spec: `ReadVLong` on a byte-array input (≤ 9 bytes). -/
def ByteArrayDataInput.readVLong (r : ByteArrayDataInput) : Option (Nat × ByteArrayDataInput) :=
  match readVar 9 (r.bytes.drop r.pos) with
  | none => none
  | some (v, n) => some (v, { r with pos := r.pos + n })

/-- Modelled from the spec: `ReadVInt` on a byte-array input (≤ 5 bytes). -/
def ByteArrayDataInput.readVInt (r : ByteArrayDataInput) : Option (Nat × ByteArrayDataInput) :=
  match readVar 5 (r.bytes.drop r.pos) with
  | none => none
  | some (v, n) => some (v, { r with pos := r.pos + n })

/-- Modelled from the spec: `ReadByte` on a byte-array input. -/
def ByteArrayDataInput.readByte (r : ByteArrayDataInput) : Option (Nat × ByteArrayDataInput) :=
  if h : r.pos < r.bytes.length then some (r.bytes.get ⟨r.pos, h⟩, { r with pos := r.pos + 1 })
  else none

/-- `ReadVInt` whose error is discarded by the caller (the frame code does
`f.numFollowFloorBlocks, _ = asInt(f.floorDataReader.ReadVInt())`): the Go
value result is 0 when the read fails. -/
def ByteArrayDataInput.readVIntD (r : ByteArrayDataInput) : Nat × ByteArrayDataInput :=
  (r.readVInt).getD (0, r)

/-- `ReadByte` whose error is discarded by the caller. -/
def ByteArrayDataInput.readByteD (r : ByteArrayDataInput) : Nat × ByteArrayDataInput :=
  (r.readByte).getD (0, r)

/-- Modelled from the spec: one arc of the `util.FST` runtime (not in the
excerpt).  `Output`/`NextFinalOutput` are byte-sequence outputs; `none`
models a Go `nil` interface value, `some []` the no-output singleton.
`target` is the destination node used by `find_target_arc`. -/
structure Arc where
  Label : Int
  Output : Option (List Nat)
  NextFinalOutput : Option (List Nat)
  final : Bool
  target : Nat
  deriving Repr, DecidableEq

/-- The zero value `util.Arc{}` (all fields zero / nil). -/
def zeroArc : Arc :=
  { Label := 0, Output := none, NextFinalOutput := none, final := false, target := 0 }

/-- Go `arc.IsFinal()`. -/
def Arc.IsFinal (a : Arc) : Bool := a.final

/-- Modelled from the spec: the loaded FST of a field
(`util.FST` with the byte-sequence output algebra, not in the excerpt).
`firstArcV` is the arc `FirstArc` copies into `arcs[0]`;
`arcsFrom node label` resolves `FindTargetArc` from the node an arc
points to. -/
structure FST where
  firstArcV : Arc
  arcsFrom : Nat → Nat → Option Arc

/-- Modelled from the spec: `FindTargetArc(label, follow, result, reader)`
returns the arc with the given label leaving `follow`'s target node, or
`none` (Go `nil`) when the index is exhausted. -/
def FST.findTargetArc (fst : FST) (label : Nat) (follow : Arc) : Option Arc :=
  fst.arcsFrom follow.target label

/-- Well-formedness of an FST: a successful `find_target_arc` lookup
returns an arc carrying the requested label. -/
def FSTWF (fst : FST) : Prop :=
  ∀ node label a, fst.arcsFrom node label = some a → a.Label = label

/-- Modelled from the spec: byte-sequence output addition
(`ByteSequenceOutputs.Add`): concatenation, with the empty sequence as
identity; a Go `nil` second argument contributes nothing. -/
def outAdd (a : List Nat) (b : Option (List Nat)) : List Nat := a ++ b.getD []

/-- `segmentTermsEnumFrame` (source lines 942-1003).  The Go frame embeds
`*SegmentTermsEnum`; fields the frame reaches through that pointer
(`term`, `termExists`, the `tim` input) are threaded explicitly through
the frame operations instead.  The source field `prefix` is named `pref`
here; `arc *util.Arc` is modelled by its nil-ness `hasArc`;
`state.termBlockOrd` by `stateTermBlockOrd`. -/
structure Frame where
  ord : Int
  hasTerms : Bool
  hasTermsOrig : Bool
  isFloor : Bool
  hasArc : Bool
  fp : Nat
  fpOrig : Nat
  fpEnd : Nat
  suffixBytes : List Nat
  suffixesReaderPos : Nat
  statBytes : List Nat
  statsReaderPos : Nat
  floorData : List Nat
  floorDataPos : Nat
  pref : Nat
  entCount : Nat
  nextEnt : Int
  isLastInFloor : Bool
  isLeafBlock : Bool
  lastSubFP : Int
  nextFloorLabel : Nat
  numFollowFloorBlocks : Nat
  metaDataUpto : Nat
  stateTermBlockOrd : Nat
  startBytePos : Nat
  suffix : Nat
  subCode : Nat
  deriving Repr, DecidableEq

/-- `newFrame(owner, ord)` (source lines 1005-1016): over-allocated zeroed
buffers, all other fields the Go zero value (note `nextEnt = 0`, not −1). -/
def newFrame (ord : Int) : Frame :=
  { ord := ord
    hasTerms := false, hasTermsOrig := false, isFloor := false, hasArc := false
    fp := 0, fpOrig := 0, fpEnd := 0
    suffixBytes := List.replicate 128 0, suffixesReaderPos := 0
    statBytes := List.replicate 64 0, statsReaderPos := 0
    floorData := List.replicate 32 0, floorDataPos := 0
    pref := 0, entCount := 0, nextEnt := 0
    isLastInFloor := false, isLeafBlock := false, lastSubFP := 0
    nextFloorLabel := 0, numFollowFloorBlocks := 0
    metaDataUpto := 0, stateTermBlockOrd := 0
    startBytePos := 0, suffix := 0, subCode := 0 }

/-- The `staticFrame` sentinel, `newFrame(ans, -1)` (source line 438). -/
def staticFrame : Frame := newFrame (-1)

/-- `setFloorData(in, source)` (source lines 1018-1031): copy the rest of
the frame data into the floor buffer (whose old tail survives when it is
longer, exactly as the Go `copy` into a larger reused buffer), rewind the
floor reader and pre-read the block count and first floor label.  The Go
code discards the read errors. -/
def Frame.setFloorData (f : Frame) (inPos : Nat) (source : List Nat) : Frame :=
  let numBytes := source.length - inPos
  let buf := if numBytes > f.floorData.length then List.replicate numBytes 0 else f.floorData
  let fd := source.drop inPos ++ buf.drop numBytes
  let r0 : ByteArrayDataInput := { bytes := fd, pos := 0 }
  let (nffb, r1) := r0.readVIntD
  let (b, r2) := r1.readByteD
  { f with floorData := fd, floorDataPos := r2.pos
           numFollowFloorBlocks := nffb, nextFloorLabel := b }

/-- `rewind()` (source lines 1131-1142). -/
def Frame.rewind (f : Frame) : Frame :=
  let f := { f with fp := f.fpOrig, nextEnt := -1, hasTerms := f.hasTermsOrig }
  if f.isFloor then
    let r0 : ByteArrayDataInput := { bytes := f.floorData, pos := 0 }
    let (nffb, r1) := r0.readVIntD
    let (b, r2) := r1.readByteD
    { f with floorDataPos := r2.pos, numFollowFloorBlocks := nffb, nextFloorLabel := b }
  else f

/-- `scanToFloorFrame(target)` (source lines 1147-1208): no-op unless the
frame is floored and the target is longer than the shared block prefix;
stays put when the target's label is below the next floor label; the
advancement loop over the floor data is commented out in the source — the
code asserts a nonzero follow-block count and then panics. -/
def Frame.scanToFloorFrame (f : Frame) (target : List Nat) : GoRes Frame :=
  if ¬f.isFloor ∨ target.length ≤ f.pref then .ok f
  else
    let targetLabel := target.getD f.pref 0
    if targetLabel < f.nextFloorLabel then .ok f
    else if f.numFollowFloorBlocks = 0 then .panic ("assert fail")
    else .panic ("not implemented yet")

/-- `prefixMatches(target)` (source lines 1211-1213): documented "Used
only by assert", but its body is the stub `panic("not implemented yet")`. -/
def Frame.prefixMatches (_f : Frame) (_target : List Nat) : GoRes Bool :=
  .panic ("not implemented yet")

/-- `fillTerm()` (source lines 1366-1375): grow the term buffer to
`prefix + suffix` if shorter (keeping any longer tail, as the Go code
does not truncate), then copy the scanned suffix bytes in at offset
`prefix`.  Go's `copy` writes `min`-many bytes. -/
def Frame.fillTerm (f : Frame) (term : List Nat) : List Nat :=
  let termLength := f.pref + f.suffix
  let t := if term.length < termLength then term ++ List.replicate (termLength - term.length) 0 else term
  let src := (f.suffixBytes.drop f.startBytePos).take f.suffix
  t.take f.pref ++ src ++ t.drop (f.pref + src.length)

/-- Result of the inner byte-comparison loop of `scanToTermLeaf`:
continue with the next entry (`contOuter`, with the `isDone` flag of the
source), or return `NOT_FOUND` / `FOUND`. -/
inductive LeafInnerOut where
  | contOuter (isDone : Bool) (term : List Nat)
  | notFound
  | found (term : List Nat)
  deriving Repr, DecidableEq

/-- The inner loop of `scanToTermLeaf` (source lines 1271-1333): compare
the entry's suffix bytes with the target from position `targetPos`,
byte subtraction wrapping modulo 256 exactly as Go's `byte` arithmetic
widened to `int` does.  `fuel` bounds the recursion (each pass advances
`targetPos` towards `targetLimit`). -/
def leafInner (f : Frame) (term : List Nat) (termExists : Bool) (target : List Nat)
    (exactOnly : Bool) (termLen targetLimit bytePos targetPos : Nat) :
    Nat → GoRes LeafInnerOut
  | 0 => .panic ("model fuel exhausted")
  | fuel + 1 =>
    let step : GoRes (Int × Bool × Nat × Nat) :=
      if targetPos < targetLimit then
        if bytePos < f.suffixBytes.length then
          .ok (((f.suffixBytes.getD bytePos 0 : Int) - (target.getD targetPos 0 : Int)) % 256,
               false, bytePos + 1, targetPos + 1)
        else .panic ("index out of range")
      else if targetPos ≠ targetLimit then .panic ("assert fail")
      else .ok ((termLen : Int) - (target.length : Int), true, bytePos, targetPos)
    match step with
    | .panic m => .panic m
    | .goerr g => .goerr g
    | .ok (cmp, stop, bytePos', targetPos') =>
      if cmp < 0 then
        if f.nextEnt = (f.entCount : Int) then
          .ok (.contOuter true (if exactOnly then f.fillTerm term else term))
        else .ok (.contOuter false term)
      else if cmp > 0 then .ok .notFound
      else if stop then
        if !termExists then .panic ("assert fail")
        else .ok (.found (f.fillTerm term))
      else leafInner f term termExists target exactOnly termLen targetLimit bytePos' targetPos' fuel

/-- The entry loop of `scanToTermLeaf` (source lines 1247-1338): read the
next suffix length, skip over the suffix bytes, run the byte comparison;
on `isDone` fall out to the block-end return (which fills the term again
when exact-only, as the source does).  `fuel` bounds the recursion (each
pass consumes at least one suffix-reader byte). -/
def leafOuter (f : Frame) (term : List Nat) (termExists : Bool) (target : List Nat)
    (exactOnly : Bool) : Nat → GoRes (SeekStatus × Frame × List Nat × Bool)
  | 0 => .panic ("model fuel exhausted")
  | fuel + 1 =>
    let f := { f with nextEnt := f.nextEnt + 1 }
    let r : ByteArrayDataInput := { bytes := f.suffixBytes, pos := f.suffixesReaderPos }
    match r.readVInt with
    | none => .goerr .readPastEOF
    | some (sfx, r1) =>
      let f := { f with suffix := sfx, startBytePos := r1.pos, suffixesReaderPos := r1.pos + sfx }
      let termLen := f.pref + sfx
      let targetLimit := min termLen target.length
      match leafInner f term termExists target exactOnly termLen targetLimit r1.pos f.pref
          (targetLimit + 1) with
      | .panic m => .panic m
      | .goerr g => .goerr g
      | .ok .notFound => .ok (.NOT_FOUND, f, term, termExists)
      | .ok (.found term') => .ok (.FOUND, f, term', termExists)
      | .ok (.contOuter true term') =>
        let term'' := if exactOnly then f.fillTerm term' else term'
        .ok (.END, f, term'', termExists)
      | .ok (.contOuter false term') => leafOuter f term' termExists target exactOnly fuel

/-- `scanToTermLeaf(target, exactOnly)` (source lines 1225-1358).  The
threaded `term`/`termExists` model the fields the frame reaches through
its embedded `*SegmentTermsEnum`.  Note the source asserts the block's
shared prefix via `prefixMatches`, whose body is a
`panic("not implemented yet")` stub, before the entry loop. -/
def scanToTermLeaf (f : Frame) (term : List Nat) (termExists : Bool) (target : List Nat)
    (exactOnly : Bool) : GoRes (SeekStatus × Frame × List Nat × Bool) :=
  if f.nextEnt = -1 then .panic ("assert fail")
  else
    let termExists := true
    let f := { f with subCode := 0 }
    if f.nextEnt = (f.entCount : Int) then
      let term := if exactOnly then f.fillTerm term else term
      .ok (.END, f, term, termExists)
    else
      match f.prefixMatches target with
      | .panic m => .panic m
      | .goerr g => .goerr g
      | .ok b =>
        if !b then .panic ("assert fail")
        else leafOuter f term termExists target exactOnly (f.suffixBytes.length + 1)

/-- `scanToTermNonLeaf(target, exactOnly)` (source lines 1362-1364): a
stub. -/
def scanToTermNonLeaf (_f : Frame) (_term : List Nat) (_termExists : Bool)
    (_target : List Nat) (_exactOnly : Bool) : GoRes (SeekStatus × Frame × List Nat × Bool) :=
  .panic ("not implemented yet")

/-- `scanToTerm(target, exactOnly)` (source lines 1216-1221). -/
def scanToTerm (f : Frame) (term : List Nat) (termExists : Bool) (target : List Nat)
    (exactOnly : Bool) : GoRes (SeekStatus × Frame × List Nat × Bool) :=
  if f.isLeafBlock then scanToTermLeaf f term termExists target exactOnly
  else scanToTermNonLeaf f term termExists target exactOnly

/-- Modelled from the spec: a positioned random-access view of the `tim`
file (`store.IndexInput`, not in the excerpt). -/
structure IndexInput where
  data : List Nat
  fp : Nat
  deriving Repr, DecidableEq

/-- Modelled from the spec: `ReadVInt` on an `IndexInput`; the Go method
returns a zero value together with an error flag at end of input. -/
def IndexInput.readVIntE (i : IndexInput) : Nat × IndexInput × Bool :=
  match readVar 5 (i.data.drop i.fp) with
  | none => (0, i, true)
  | some (v, n) => (v, { i with fp := i.fp + n }, false)

/-- Modelled from the spec: `ReadBytes` filling a buffer of length `n`. -/
def IndexInput.readBytesE (i : IndexInput) (n : Nat) : List Nat × IndexInput × Bool :=
  if i.fp + n ≤ i.data.length then ((i.data.drop i.fp).take n, { i with fp := i.fp + n }, false)
  else ([], i, true)

/-- The statistics stage of `loadBlock` (source lines 1104-1120): the
stats-length vInt (whose read error is the source's early `return nil`,
line 1104) and the stats bytes, then the final frame positioning.  The
returned `Nat` is the running count of reads performed on the `tim`
input, including the three reads of the earlier stages. -/
def loadBlockStats (f3 : Frame) (r3in : IndexInput) :
    GoRes (Frame × IndexInput × Nat × Option GoErr) :=
  let r4 := r3in.readVIntE
  if r4.2.2 then .ok (f3, r4.2.1, 4, none)
  else
    let sbuf := if f3.statBytes.length < r4.1 then List.replicate r4.1 0
                else f3.statBytes
    let r5 := r4.2.1.readBytesE sbuf.length
    let f4 := { f3 with statBytes := if r5.2.2 then sbuf else r5.1 }
    if r5.2.2 then .ok (f4, r5.2.1, 5, some .readPastEOF)
    else
      let f5 := { f4 with statsReaderPos := 0, metaDataUpto := 0,
                          stateTermBlockOrd := 0, nextEnt := 0, lastSubFP := -1,
                          fpEnd := r5.2.1.fp }
      .ok (f5, r5.2.1, 5, none)

/-- The suffix-bytes stage of `loadBlock` (source lines 1085-1103),
continuing into the stats stage. -/
def loadBlockSuffixes (f1 : Frame) (r2 : Nat × IndexInput × Bool) :
    GoRes (Frame × IndexInput × Nat × Option GoErr) :=
  let isLeafBlock := (r2.1 &&& 1) ≠ 0
  let numBytes := r2.1 >>> 1
  let buf := if f1.suffixBytes.length < numBytes then List.replicate numBytes 0
             else f1.suffixBytes
  let r3 := r2.2.1.readBytesE buf.length
  let f2 := { f1 with isLeafBlock := isLeafBlock,
                      suffixBytes := if r3.2.2 then buf else r3.1 }
  if r3.2.2 then .ok (f2, r3.2.1, 3, some .readPastEOF)
  else loadBlockStats { f2 with suffixesReaderPos := 0 } r3.2.1

/-- `loadBlock()` (source lines 1050-1129), together with
`initIndexInput` (lazily cloning the owner's `tim` input, source lines
469-473), staged through `loadBlockSuffixes` and `loadBlockStats`.
Returns the updated frame and input, the number of reads performed on
the `tim` input, and the Go `error` result.  The postings reader's
`ReadTermsBlock` is an external collaborator, modelled from the spec as
consuming no bytes.  Note the suffix/stats `ReadBytes` calls fill the
whole (possibly over-allocated) reused buffer, as the Go code passes the
full slice. -/
def loadBlock (f : Frame) (timData : List Nat) (inOpt : Option IndexInput) :
    GoRes (Frame × IndexInput × Nat × Option GoErr) :=
  let inn0 := inOpt.getD { data := timData, fp := 0 }
  if f.nextEnt ≠ -1 then .ok (f, inn0, 0, none)
  else
    let r1 := ({ data := inn0.data, fp := f.fp } : IndexInput).readVIntE
    if r1.2.2 then .ok (f, r1.2.1, 1, some .readPastEOF)
    else
      let entCount := r1.1 >>> 1
      let isLastInFloor := (r1.1 &&& 1) ≠ 0
      if entCount = 0 then .panic ("assert fail")
      else if f.hasArc && isLastInFloor && f.isFloor then .panic ("assert fail")
      else
        let f1 := { f with entCount := entCount, isLastInFloor := isLastInFloor }
        loadBlockSuffixes f1 r1.2.1.readVIntE

/-- Per-field reader (`FieldReader`, source lines 324-336).  `index` is
the field's FST (`nil` when the reader was built without a `tip` input). -/
structure FieldReader where
  fieldName : String
  numTerms : Int
  rootCode : List Nat
  sumTotalTermFreq : Int
  sumDocFreq : Int
  docCount : Int
  indexStartFP : Nat
  rootBlockFP : Nat
  index : Option FST

/-- The Go zero value `FieldReader{}` (produced by a map access on a
missing key). -/
def zeroFieldReader : FieldReader :=
  { fieldName := "", numTerms := 0, rootCode := [], sumTotalTermFreq := 0,
    sumDocFreq := 0, docCount := 0, indexStartFP := 0, rootBlockFP := 0, index := none }

/-- `newFieldReader(...)` (source lines 338-375): assert `numTerms > 0`
(a bare `panic("assert fail")`), decode the root code's vLong and shift
off the two output-flag bits to obtain `rootBlockFP`.  `loadedIndex` is
the FST produced by `util.LoadFST` on the cloned `tip` input (an external
collaborator, modelled from the spec); it is `none` when `indexIn` was
nil. -/
def newFieldReader (fieldName : String) (numTerms : Int) (rootCode : List Nat)
    (sumTotalTermFreq sumDocFreq docCount : Int) (indexStartFP : Nat)
    (loadedIndex : Option FST) : GoRes FieldReader :=
  if numTerms ≤ 0 then .panic ("assert fail")
  else
    match readVar 9 rootCode with
    | none => .goerr .readPastEOF
    | some (n, _) =>
      .ok { fieldName := fieldName, numTerms := numTerms, rootCode := rootCode,
            sumTotalTermFreq := sumTotalTermFreq, sumDocFreq := sumDocFreq,
            docCount := docCount, indexStartFP := indexStartFP,
            rootBlockFP := n >>> BTT_OUTPUT_FLAGS_NUM_BITS, index := loadedIndex }

/-- `FieldInfo.indexOptions` values relevant to the directory trailer. -/
inductive IndexOptions where
  | DOCS_ONLY
  | DOCS_AND_FREQS
  | DOCS_AND_FREQS_AND_POSITIONS
  deriving Repr, DecidableEq

/-- One per-field directory entry as read from the `tim` trailer
(source lines 171-247): the raw values the loop reads, the field's
index options (deciding whether `sumTotalTermFreq` was read at all), and
the FST the spec-modelled `LoadFST` yields for the field. -/
structure DirEntry where
  fieldNumber : Int
  fieldName : String
  indexOptions : IndexOptions
  numTerms : Int
  rootCode : List Nat
  sumTotalTermFreqRead : Int
  sumDocFreq : Int
  docCount : Int
  indexStartFP : Nat
  loadedIndex : Option FST

/-- The `sumTotalTermFreq` value for an entry: −1 for a `DOCS_ONLY`
field, otherwise the value read from the trailer (source lines 199-207). -/
def DirEntry.sumTotalTermFreq (e : DirEntry) : Int :=
  if e.indexOptions = IndexOptions.DOCS_ONLY then -1 else e.sumTotalTermFreqRead

/-- The three corrupt-index checks of the directory loop (source lines
217-231), in source order: `docCount` within `[0, maxDoc]`,
`sumDocFreq ≥ docCount`, and `sumTotalTermFreq ≥ sumDocFreq` when
defined.  Returns the descriptive error of the first failing check. -/
def validateDirEntry (maxDoc : Int) (e : DirEntry) : Option GoErr :=
  if e.docCount < 0 ∨ e.docCount > maxDoc then
    some (.invalidDocCount e.docCount maxDoc)
  else if e.sumDocFreq < e.docCount then
    some (.invalidSumDocFreq e.sumDocFreq e.docCount)
  else if e.sumTotalTermFreq ≠ -1 ∧ e.sumTotalTermFreq < e.sumDocFreq then
    some (.invalidSumTotalTermFreq e.sumTotalTermFreq e.sumDocFreq)
  else none

/-- Association-list lookup standing in for the Go `fields` map. -/
def lookupField : List (String × FieldReader) → String → Option FieldReader
  | [], _ => none
  | (k, v) :: rest, s => if k = s then some v else lookupField rest s

/-- The per-field loop of `newBlockTreeTermsReader` (source lines
171-252): validate each directory entry, reject duplicate field names,
and construct the field reader.  `acc` is the `fields` map built so far. -/
def loadFields (maxDoc : Int) : List DirEntry → List (String × FieldReader) →
    GoRes (List (String × FieldReader))
  | [], acc => .ok acc
  | e :: rest, acc =>
    match validateDirEntry maxDoc e with
    | some ge => .goerr ge
    | none =>
      if (lookupField acc e.fieldName).isSome then .goerr (.duplicateField e.fieldName)
      else
        match newFieldReader e.fieldName e.numTerms e.rootCode e.sumTotalTermFreq
            e.sumDocFreq e.docCount e.indexStartFP e.loadedIndex with
        | .panic m => .panic m
        | .goerr g => .goerr g
        | .ok fr => loadFields maxDoc rest (acc ++ [(e.fieldName, fr)])

/-- The dictionary reader's state relevant to `Terms` (source lines
89-102): the per-field readers map. -/
structure BlockTreeTermsReader where
  fields : List (String × FieldReader)

/-- `Terms(field)` (source lines 310-313): a Go map access whose missing
key yields the zero `FieldReader`, of which a (always non-nil) pointer is
returned — so the result is never `none` and never an error. -/
def BlockTreeTermsReader.Terms (r : BlockTreeTermsReader) (field : String) :
    Option FieldReader :=
  some ((lookupField r.fields field).getD zeroFieldReader)

/-- `SegmentTermsEnum` (source lines 395-423).  `currentOrd` models the
`currentFrame` pointer by the frame's `ord` (−1 = `staticFrame`);
`timData` is the backing of the owner's shared `tim` input, `inOpt` the
lazily created clone (`initIndexInput`).  The source field
`validIndexPrefix` is named `validIndexPref` here. -/
structure SegmentTermsEnum where
  index : Option FST
  timData : List Nat
  inOpt : Option IndexInput
  stack : List Frame
  currentOrd : Int
  termExists : Bool
  targetBeforeCurrentLength : Int
  validIndexPref : Nat
  eof : Bool
  term : List Nat
  arcs : List Arc

/-- The frame `currentFrame` points at. -/
def SegmentTermsEnum.currentFrame (e : SegmentTermsEnum) : Frame :=
  if e.currentOrd < 0 then staticFrame else e.stack.getD e.currentOrd.toNat (newFrame 0)

/-- `newSegmentTermsEnum(r)` (source lines 425-467): empty stack and term,
one zero arc; when the field has an index, `FirstArc` fills `arcs[0]`
and the result must be final. -/
def newSegmentTermsEnum (r : FieldReader) (timData : List Nat) : GoRes SegmentTermsEnum :=
  let base : SegmentTermsEnum :=
    { index := r.index, timData := timData, inOpt := none, stack := [], currentOrd := -1,
      termExists := false, targetBeforeCurrentLength := 0, validIndexPref := 0,
      eof := false, term := [], arcs := [zeroArc] }
  match r.index with
  | none => .ok base
  | some fst =>
    let arc := fst.firstArcV
    if ¬ arc.IsFinal then .panic ("assert fail")
    else .ok { base with arcs := [arc] }

/-- `getArc(ord)`'s growth of the arc array (source lines 493-506); the
entry itself is written by `FindTargetArc` only on a hit. -/
def getArcs (arcs : List Arc) (ord : Nat) : List Arc :=
  if ord = arcs.length then arcs ++ [zeroArc]
  else if ord > arcs.length then arcs ++ List.replicate (1 + ord - arcs.length) zeroArc
  else arcs

/-- The stack growth of `frame(ord)` (source lines 476-486): append one
fresh frame when `ord` is the current length, or fill up to `1 + ord`
fresh frames when it is beyond. -/
def growStack (stack : List Frame) (ord : Nat) : List Frame :=
  if ord = stack.length then stack ++ [newFrame ord]
  else if ord > stack.length then
    stack ++ (List.range (1 + ord - stack.length)).map
      (fun i : Nat => newFrame (((stack.length + i : Nat) : Int)))
  else stack

/-- `frame(ord)` (source lines 475-491): grow the stack with fresh frames
as needed and assert the slot's recorded `ord` matches. -/
def frameAcq (stack : List Frame) (ord : Nat) : GoRes (Frame × List Frame) :=
  if ((growStack stack ord).getD ord (newFrame 0)).ord ≠ (ord : Int) then .panic ("assert fail")
  else .ok ((growStack stack ord).getD ord (newFrame 0), growStack stack ord)

/-- `pushFrameAt(arc, fp, length)` (source lines 533-557): reuse the frame
when it was loaded from the same file pointer (rewinding unless the push
stays within the already-compared target prefix), else mark it unloaded
and record the new block position. -/
def pushFrameAt (e : SegmentTermsEnum) (arcPresent : Bool) (fp : Nat) (length : Nat) :
    GoRes (Frame × SegmentTermsEnum) :=
  match frameAcq e.stack (1 + e.currentOrd).toNat with
  | .panic m => .panic m
  | .goerr g => .goerr g
  | .ok (f, stack) =>
    let f := { f with hasArc := arcPresent }
    if f.fpOrig = fp ∧ f.nextEnt ≠ -1 then
      let f := if (f.pref : Int) > e.targetBeforeCurrentLength then f.rewind else f
      if (length : Int) ≠ (f.pref : Int) then .panic ("assert fail")
      else .ok (f, { e with stack := stack.set (1 + e.currentOrd).toNat f })
    else
      let f := { f with nextEnt := -1, pref := length, stateTermBlockOrd := 0,
                        fpOrig := fp, fp := fp, lastSubFP := -1 }
      .ok (f, { e with stack := stack.set (1 + e.currentOrd).toNat f })

/-- `pushFrame(arc, frameData, length)` (source lines 513-529): decode the
accumulated output's vLong into the block file pointer (high bits) and
the two output flags (low bits), read floor metadata when floored, then
position the frame via `pushFrameAt`. -/
def pushFrame (e : SegmentTermsEnum) (arcPresent : Bool) (frameData : List Nat) (length : Nat) :
    GoRes (Frame × SegmentTermsEnum) :=
  let r0 : ByteArrayDataInput := { bytes := frameData, pos := 0 }
  match r0.readVLong with
  | none => .goerr .readPastEOF
  | some (code, r1) =>
    let fpSeek := code >>> BTT_OUTPUT_FLAGS_NUM_BITS
    match frameAcq e.stack (1 + e.currentOrd).toNat with
    | .panic m => .panic m
    | .goerr g => .goerr g
    | .ok (f, stack) =>
      let hasTerms := (code &&& BTT_OUTPUT_FLAG_HAS_TERMS) ≠ 0
      let f := { f with hasTerms := hasTerms, hasTermsOrig := hasTerms,
                        isFloor := (code &&& BTT_OUTPUT_FLAG_IS_FLOOR) ≠ 0 }
      let f := if f.isFloor then f.setFloorData r1.pos frameData else f
      let e := { e with stack := stack.set (1 + e.currentOrd).toNat f }
      pushFrameAt e arcPresent fpSeek length

/-- Modelled from the spec: `util.GetFSTOutput(fst, input)` (debug path,
not in the excerpt): the composed output of the path accepting `input` —
the first arc's output, each followed arc's output, and the final arc's
`NextFinalOutput` — or `none` when the path is missing or not final. -/
def getFSTOutputGo (fst : FST) (arc : Arc) (out : List Nat) : List Nat → Option (List Nat)
  | [] => if arc.IsFinal then some (outAdd out arc.NextFinalOutput) else none
  | l :: rest =>
    match fst.arcsFrom arc.target l with
    | none => none
    | some a => getFSTOutputGo fst a (outAdd out a.Output) rest

/-- `GetFSTOutput` from the FST's first arc. -/
def getFSTOutput (fst : FST) (input : List Nat) : Option (List Nat) :=
  getFSTOutputGo fst fst.firstArcV (fst.firstArcV.Output.getD []) input

/-- The checking part of `printSeekState`'s frame loop (source lines
813-895; the `log.Printf` calls are elided, the asserts and
"broken seek state" panics are kept): for each frame up to the current
one, slice the term prefix (a Go slice bound panic when the frame's
prefix exceeds the term), check seek frames carry an arc, re-derive the
frame's output code from the FST and compare.  Returns the enum because
`frame(ord)` can grow the stack. -/
def psLoop (fst : FST) (e : SegmentTermsEnum) (isSeekFrame : Bool) (ord : Nat) :
    Nat → GoRes SegmentTermsEnum
  | 0 => .panic ("model fuel exhausted")
  | fuel + 1 =>
    match frameAcq e.stack ord with
    | .panic m => .panic m
    | .goerr g => .goerr g
    | .ok (f, stack) =>
      let e := { e with stack := stack }
      if f.pref > e.term.length then .panic ("slice bounds out of range")
      else
        let prefixBytes := e.term.take f.pref
        if isSeekFrame ∧ ¬ f.hasArc then .panic ("assert fail")
        else
          match getFSTOutput fst prefixBytes with
          | none => .panic ("seek state is broken")
          | some output =>
            let codeCheck : GoRes Unit :=
              if isSeekFrame ∧ ¬ f.isFloor then
                let codeOrig := ((readVar 9 output).map Prod.fst).getD 0
                let code := (f.fp <<< BTT_OUTPUT_FLAGS_NUM_BITS)
                  + (if f.hasTerms then BTT_OUTPUT_FLAG_HAS_TERMS else 0)
                  + (if f.isFloor then BTT_OUTPUT_FLAG_IS_FLOOR else 0)
                if codeOrig ≠ code then .panic ("seek state is broken") else .ok ()
              else .ok ()
            match codeCheck with
            | .panic m => .panic m
            | .goerr g => .goerr g
            | .ok _ =>
              if (ord : Int) = e.currentOrd then .ok e
              else
                let isSeekFrame' := if f.pref = e.validIndexPref then false else isSeekFrame
                psLoop fst e isSeekFrame' (ord + 1) fuel

/-- `printSeekState()` (source lines 809-897): a no-op before any seek;
otherwise walk the frames running the consistency checks of `psLoop`. -/
def printSeekState (e : SegmentTermsEnum) : GoRes SegmentTermsEnum :=
  if e.currentOrd = staticFrame.ord then .ok e
  else
    match e.index with
    | none => .ok e
    | some fst => psLoop fst e true 0 (e.currentOrd.toNat + 2)

/-- The first comparison loop of the seek-state reuse path (source lines
617-637): compare term and target over the valid index prefix, stepping
`arc` through the arc stack (asserting each label), composing outputs,
and advancing `lastFrame` (tracked by its `ord`) at each final arc.
Returns `(cmp, arc, output, lastFrame ord, targetUpto)`.  Go's `byte`
subtraction widened to `int` is the wrap-around `% 256`. -/
def reuseLoop1 (e : SegmentTermsEnum) (target : List Nat) (cmp : Int) (arc : Arc)
    (output : List Nat) (lfOrd : Int) (targetUpto targetLimit : Nat) :
    Nat → GoRes (Int × Arc × List Nat × Int × Nat)
  | 0 => .panic ("model fuel exhausted")
  | fuel + 1 =>
    if targetUpto < targetLimit then
      if targetUpto < e.term.length then
        let cmp : Int := ((e.term.getD targetUpto 0 : Int) - (target.getD targetUpto 0 : Int)) % 256
        if cmp ≠ 0 then .ok (cmp, arc, output, lfOrd, targetUpto)
        else
          if 1 + targetUpto < e.arcs.length then
            let arc := e.arcs.getD (1 + targetUpto) zeroArc
            if arc.Label ≠ (target.getD targetUpto 0 : Int) then .panic ("assert fail")
            else
              match arc.Output with
              | none => .panic ("interface conversion")
              | some outv =>
                let output := if outv = [] then output else output ++ outv
                if arc.IsFinal then
                  let idx := 1 + lfOrd
                  if idx < 0 ∨ e.stack.length ≤ idx.toNat then .panic ("index out of range")
                  else
                    let lfOrd := (e.stack.getD idx.toNat (newFrame 0)).ord
                    reuseLoop1 e target cmp arc output lfOrd (targetUpto + 1) targetLimit fuel
                else reuseLoop1 e target cmp arc output lfOrd (targetUpto + 1) targetLimit fuel
          else .panic ("index out of range")
      else .panic ("index out of range")
    else .ok (cmp, arc, output, lfOrd, targetUpto)

/-- The second comparison loop of the reuse path (source lines 650-658):
extend the comparison over the rest of term and target without saving
arc/output/frame state. -/
def reuseLoop2 (term target : List Nat) (cmp : Int) (targetUpto targetLimit2 : Nat) :
    Nat → Int × Nat
  | 0 => (cmp, targetUpto)
  | fuel + 1 =>
    if targetUpto < targetLimit2 then
      let cmp : Int := ((term.getD targetUpto 0 : Int) - (target.getD targetUpto 0 : Int)) % 256
      if cmp ≠ 0 then (cmp, targetUpto)
      else reuseLoop2 term target cmp (targetUpto + 1) targetLimit2 fuel
    else (cmp, targetUpto)

/-- The block-load-and-scan ending of `SeekExact`, written out twice in
the source (index exhausted, lines 738-750, and target exhausted, lines
790-802, which are identical): `loadBlock` (its returned error ignored
by both call sites), then `scanToTerm(target, true)`, returning true
exactly on `FOUND`. -/
def loadAndScan (e : SegmentTermsEnum) (target : List Nat) (tr : List SeekEvent) :
    GoRes (Bool × SegmentTermsEnum × List SeekEvent) :=
  match loadBlock e.currentFrame e.timData e.inOpt with
  | .panic m => .panic m
  | .goerr g => .goerr g
  | .ok (cf', inn, cnt, _ignoredErr) =>
    let e := { e with stack := e.stack.set e.currentOrd.toNat cf', inOpt := some inn }
    let tr := tr ++ [.loadBlockCall] ++ List.replicate cnt .timRead
    match scanToTerm e.currentFrame e.term e.termExists target true with
    | .panic m => .panic m
    | .goerr g => .goerr g
    | .ok (status, cf'', term', tex') =>
      let e := { e with stack := e.stack.set e.currentOrd.toNat cf'', term := term',
                        termExists := tex' }
      let tr := tr ++ [.scanToTermCall]
      if status = SeekStatus.FOUND then .ok (true, e, tr) else .ok (false, e, tr)

/-- The FST descent loop of `SeekExact` (source lines 717-776) together
with the target-exhausted ending (lines 778-802).  On a missing arc the
index is exhausted (lines 725-750): commit the valid index prefix, pick
the floor sub-block, and either return the fast not-found (appending the
missing label to the term) or load and scan the block.  On a followed
arc: write the label into the term (a Go index panic when the write is
past the term's length), compose outputs, and push a frame at each final
arc. -/
def descendLoop (fst : FST) (target : List Nat) :
    Nat → SegmentTermsEnum → Arc → List Nat → Nat → List SeekEvent →
    GoRes (Bool × SegmentTermsEnum × List SeekEvent)
  | 0, _, _, _, _, _ => .panic ("model fuel exhausted")
  | fuel + 1, e, arc, output, targetUpto, tr =>
    if targetUpto < target.length then
      let targetLabel := target.getD targetUpto 0
      let e := { e with arcs := getArcs e.arcs (1 + targetUpto) }
      match fst.findTargetArc targetLabel arc with
      | none =>
        let e := { e with validIndexPref := e.currentFrame.pref }
        match e.currentFrame.scanToFloorFrame target with
        | .panic m => .panic m
        | .goerr g => .goerr g
        | .ok cf' =>
          let e := { e with stack := e.stack.set e.currentOrd.toNat cf' }
          if ¬ e.currentFrame.hasTerms then
            let e := { e with termExists := false, term := e.term ++ [targetLabel] }
            .ok (false, e, tr ++ [.fastNotFound])
          else loadAndScan e target tr
      | some nextArc =>
        let arc := nextArc
        let e := { e with arcs := e.arcs.set (1 + targetUpto) arc }
        if targetUpto < e.term.length then
          let e := { e with term := e.term.set targetUpto targetLabel }
          match arc.Output with
          | none => .panic ("assert fail")
          | some outv =>
            let output := if outv = [] then output else output ++ outv
            if arc.IsFinal then
              match pushFrame e true (outAdd output arc.NextFinalOutput) (targetUpto + 1) with
              | .panic m => .panic m
              | .goerr g => .goerr g
              | .ok (f, e) =>
                let e := { e with currentOrd := f.ord }
                descendLoop fst target fuel e arc output (targetUpto + 1) tr
            else descendLoop fst target fuel e arc output (targetUpto + 1) tr
        else .panic ("index out of range")
    else
      let e := { e with validIndexPref := e.currentFrame.pref }
      match e.currentFrame.scanToFloorFrame target with
      | .panic m => .panic m
      | .goerr g => .goerr g
      | .ok cf' =>
        let e := { e with stack := e.stack.set e.currentOrd.toNat cf' }
        if ¬ e.currentFrame.hasTerms then
          let e := { e with termExists := false, term := e.term.take targetUpto }
          .ok (false, e, tr ++ [.fastNotFound])
        else loadAndScan e target tr

/-- The final three-way decision of the reuse path (source lines
666-692): target before the current term (keep the deepest final-arc
frame), after it (rewind that frame), or equal (return true without I/O
when the term exists); every non-returning branch continues with the FST
descent from `targetUpto`. -/
def seekReuseDecide (fst : FST) (e : SegmentTermsEnum) (target : List Nat) (cmp : Int)
    (arc : Arc) (output : List Nat) (lfOrd : Int) (targetUpto : Nat) :
    GoRes (Bool × SegmentTermsEnum × List SeekEvent) :=
  if cmp < 0 then
    descendLoop fst target (target.length - targetUpto + 1)
      { e with currentOrd := lfOrd } arc output targetUpto []
  else if cmp > 0 then
    descendLoop fst target (target.length - targetUpto + 1)
      { e with targetBeforeCurrentLength := 0, currentOrd := lfOrd,
               stack := e.stack.set lfOrd.toNat
                 (e.stack.getD lfOrd.toNat (newFrame 0)).rewind }
      arc output targetUpto []
  else if e.term.length ≠ target.length then .panic ("assert fail")
  else if e.termExists then .ok (true, e, [])
  else descendLoop fst target (target.length - targetUpto + 1) e arc output targetUpto []

/-- The seek-state reuse path of `SeekExact` (source lines 582-692):
compare the target against the current term over the valid index prefix
(first loop saving arc/output/frame state, second loop only deciding the
order, with the length difference as the tiebreak), then decide via
`seekReuseDecide`. -/
def seekReuse (fst : FST) (e : SegmentTermsEnum) (target : List Nat) :
    GoRes (Bool × SegmentTermsEnum × List SeekEvent) :=
  if e.arcs.length = 0 then .panic ("index out of range")
  else if ¬ (e.arcs.getD 0 zeroArc).IsFinal then .panic ("assert fail")
  else
    match (e.arcs.getD 0 zeroArc).Output with
    | none => .panic ("interface conversion")
    | some output =>
      if e.stack.length = 0 then .panic ("index out of range")
      else if e.validIndexPref > e.term.length then .panic ("assert fail")
      else
        match reuseLoop1 e target 0 (e.arcs.getD 0 zeroArc) output
            (e.stack.getD 0 (newFrame 0)).ord 0 (min e.validIndexPref target.length)
            (min e.validIndexPref target.length + 1) with
        | .panic m => .panic m
        | .goerr g => .goerr g
        | .ok (cmp, arc, output, lfOrd, targetUpto) =>
          seekReuseDecide fst e target
            (if cmp = 0 then
              (if (reuseLoop2 e.term target cmp targetUpto (min target.length e.term.length)
                    (min target.length e.term.length + 1)).1 = 0 then
                 ((e.term.length : Int) - (target.length : Int))
               else
                 (reuseLoop2 e.term target cmp targetUpto (min target.length e.term.length)
                    (min target.length e.term.length + 1)).1)
             else cmp)
            arc output lfOrd targetUpto

/-- The fresh-descent entry of `SeekExact` (source lines 693-712):
`FirstArc` into `arcs[0]` (which must be final with a non-nil output),
push the root frame from the root output, and descend. -/
def seekFresh (fst : FST) (e : SegmentTermsEnum) (target : List Nat) :
    GoRes (Bool × SegmentTermsEnum × List SeekEvent) :=
  if e.arcs.length = 0 then .panic ("index out of range")
  else if ¬ fst.firstArcV.IsFinal ∨ fst.firstArcV.Output = none then .panic ("assert fail")
  else
    match pushFrame
        { e with targetBeforeCurrentLength := -1, arcs := e.arcs.set 0 fst.firstArcV,
                 currentOrd := staticFrame.ord }
        true (outAdd (fst.firstArcV.Output.getD []) fst.firstArcV.NextFinalOutput) 0 with
    | .panic m => .panic m
    | .goerr g => .goerr g
    | .ok (f, e1) =>
      descendLoop fst target (target.length + 1) { e1 with currentOrd := f.ord }
        fst.firstArcV (fst.firstArcV.Output.getD []) 0 []

/-- `SeekExact(target)` (source lines 559-803): panic when the terms
index was not loaded; otherwise clear `eof`, run the `printSeekState`
consistency checks, and take the reuse or fresh path.  The result
carries the observable `SeekEvent` trace of the call. -/
def SegmentTermsEnum.seekExact (e0 : SegmentTermsEnum) (target : List Nat) :
    GoRes (Bool × SegmentTermsEnum × List SeekEvent) :=
  match e0.index with
  | none => .panic ("terms index was not loaded")
  | some fst =>
    let e := { e0 with eof := false }
    match printSeekState e with
    | .panic m => .panic m
    | .goerr g => .goerr g
    | .ok e =>
      let e := { e with targetBeforeCurrentLength := e.currentFrame.ord }
      if e.currentFrame.ord ≠ staticFrame.ord then seekReuse fst e target
      else seekFresh fst e target

/-- Whether a Go call returned normally. -/
def isOkB {α : Type} : GoRes α → Bool
  | .ok _ => true
  | _ => false

/-- Extract a normal return, with a fallback. -/
def goOr {α : Type} (d : α) : GoRes α → α
  | .ok a => a
  | _ => d

/-- The boolean result of a completed `SeekExact` call. -/
def seekBool : GoRes (Bool × SegmentTermsEnum × List SeekEvent) → Option Bool
  | .ok (b, _, _) => some b
  | _ => none

/-- The event trace of a completed `SeekExact` call (empty otherwise). -/
def seekTrace : GoRes (Bool × SegmentTermsEnum × List SeekEvent) → List SeekEvent
  | .ok (_, _, tr) => tr
  | _ => []

/-- The observable `term()` after a completed `SeekExact` call. -/
def seekTerm : GoRes (Bool × SegmentTermsEnum × List SeekEvent) → Option (List Nat)
  | .ok (_, e, _) => some e.term
  | _ => none

/-- The cursor state after a completed `SeekExact` call. -/
def seekState (d : SegmentTermsEnum) : GoRes (Bool × SegmentTermsEnum × List SeekEvent) →
    SegmentTermsEnum
  | .ok (_, e, _) => e
  | _ => d

/-- An inert cursor used as a fallback by the concrete fixtures. -/
def emptySTE : SegmentTermsEnum :=
  { index := none, timData := [], inOpt := none, stack := [], currentOrd := -1,
    termExists := false, targetBeforeCurrentLength := 0, validIndexPref := 0,
    eof := false, term := [], arcs := [] }

/-- A one-root-block FST: the empty prefix is final with output `[24]`
(vLong 24 = block fp 6, `has_terms` and `is_floor` clear), and no byte
has an arc, so every descent exhausts the index at once. -/
def fstPlain : FST :=
  { firstArcV := { Label := 0, Output := some [24], NextFinalOutput := some [],
                   final := true, target := 0 }
    arcsFrom := fun _ _ => none }

/-- A field reader over `fstPlain`. -/
def frPlain : FieldReader :=
  { fieldName := "f1", numTerms := 1, rootCode := [24], sumTotalTermFreq := -1,
    sumDocFreq := 1, docCount := 1, indexStartFP := 0, rootBlockFP := 6,
    index := some fstPlain }

/-- A freshly constructed cursor over `fstPlain`. -/
def enumPlain : SegmentTermsEnum := goOr emptySTE (newSegmentTermsEnum frPlain [])

/-- The cursor after first seeking `[120]` on `enumPlain`. -/
def enumAfterX : SegmentTermsEnum := seekState emptySTE (enumPlain.seekExact [120])

/-- A loaded leaf-block frame holding one entry (suffix `[97]` encoded as
`vInt 1` then the byte), its shared prefix already matching any target:
the concrete input for the leaf-scan claim. -/
def frameLeaf : Frame :=
  { newFrame 0 with nextEnt := 0, entCount := 1, isLeafBlock := true,
                    suffixBytes := [1, 97], suffixesReaderPos := 0, pref := 0 }

/-- A floored frame whose floor data holds one follow block
(`vInt 1`, label `5`, then `vLong 8` = sub-block at `fpOrig + 4` with
terms): the concrete input for the floor-scan claim. -/
def frameFloor : Frame :=
  { newFrame 0 with isFloor := true, nextFloorLabel := 5, numFollowFloorBlocks := 1,
                    pref := 0, fpOrig := 10, fp := 10, floorData := [1, 5, 8],
                    floorDataPos := 2 }

/-- A valid directory entry for the construction fixtures. -/
def dirEntryOk : DirEntry :=
  { fieldNumber := 1, fieldName := "body", indexOptions := .DOCS_AND_FREQS,
    numTerms := 3, rootCode := [24], sumTotalTermFreqRead := 7, sumDocFreq := 5,
    docCount := 4, indexStartFP := 0, loadedIndex := none }

/-- The panic message of a panicking Go call, when it panicked. -/
def panicMsg {α : Type} : GoRes α → Option String
  | .panic m => some m
  | _ => none

/-- The returned Go `error` of a failed Go call, when it returned one. -/
def errOf {α : Type} : GoRes α → Option GoErr
  | .goerr g => some g
  | _ => none


/-- Arc-stack/term-buffer consistency up to position `u`: the arc at
depth `1 + i` carries byte `i` of the term, with both in bounds. -/
def arcsTermConsistent (arcs : List Arc) (term : List Nat) (u : Nat) : Prop :=
  ∀ i, i < u →
    1 + i < arcs.length ∧ i < term.length ∧
    (arcs.getD (1 + i) zeroArc).Label = (term.getD i 0 : Int)

/-- The arc-stack/term-buffer consistency invariant of the cursor
(spec §4.5): for every position inside the valid index prefix, the arc
at depth `1 + i` is the arc taken to match byte `i` of the current term. -/
def arcsConsistent (e : SegmentTermsEnum) : Prop :=
  arcsTermConsistent e.arcs e.term e.validIndexPref

/-- Every stack slot records its own index as `ord` (the `frame(ord)`
assert). -/
def stackOrdsWF (s : List Frame) : Prop :=
  ∀ k, k < s.length → (s.getD k (newFrame 0)).ord = (k : Int)

/-- `s'` extends `s` by fresh frames only: existing slots unchanged, new
slots holding `newFrame` of their own index. -/
def StackGrown (s s' : List Frame) : Prop :=
  s.length ≤ s'.length ∧
  (∀ k, k < s.length → s'.getD k (newFrame 0) = s.getD k (newFrame 0)) ∧
  (∀ k, s.length ≤ k → k < s'.length → s'.getD k (newFrame 0) = newFrame k)

/-- The number of final arcs among depths `1..i` of the arc stack:
the stack index of the deepest frame reachable by `lastFrame`'s walk
over the first `i` target bytes. -/
def countFinals (arcs : List Arc) : Nat → Nat
  | 0 => 0
  | i + 1 => countFinals arcs i + (if (arcs.getD (1 + i) zeroArc).IsFinal then 1 else 0)

/-- Correspondence between the arc stack's final arcs and the frame
stack, up to prefix length `V`: walking the finals of the first `i`
bytes lands on an existing frame whose prefix is at most `i`, with no
final arcs between that prefix and `i` (so the frame is the one pushed
at the last final arc). -/
def chainInv (arcs : List Arc) (stack : List Frame) (V : Nat) : Prop :=
  ∀ i, i ≤ V →
    countFinals arcs i < stack.length ∧
    (stack.getD (countFinals arcs i) (newFrame 0)).pref ≤ i ∧
    ∀ j, (stack.getD (countFinals arcs i) (newFrame 0)).pref ≤ j → j < i →
      (arcs.getD (1 + j) zeroArc).IsFinal = false

/-- A frame that has never completed `loadBlock`: either marked unloaded
(`nextEnt = −1`), or still carrying the Go zero values of a frame that
was only ever pushed at the root with file pointer 0 (`pushFrameAt`'s
reuse branch on a never-loaded frame). -/
def frameUnloaded (f : Frame) : Prop :=
  f.nextEnt = -1 ∨
  (f.nextEnt = 0 ∧ f.fpOrig = 0 ∧ f.fp = 0 ∧ f.pref = 0 ∧
   f.isLeafBlock = false ∧ f.entCount = 0)

/-- Every stack frame is in the never-loaded state. -/
def stackUnloadedWF (s : List Frame) : Prop :=
  ∀ k, k < s.length → frameUnloaded (s.getD k (newFrame 0))

/-- Well-formedness of a cursor between `SeekExact` calls: a well-formed
FST, the valid index prefix within the term, the arc stack consistent
with the term, every stack slot recording its own index as `ord`, no
frame loaded, and — once a seek has happened — the current frame in
bounds with its prefix equal to the valid index prefix and its ord the
final-arc count of that prefix, with the frame chain correspondence. -/
def enumWF (e : SegmentTermsEnum) : Prop :=
  (∀ fst, e.index = some fst → FSTWF fst) ∧
  e.validIndexPref ≤ e.term.length ∧
  arcsConsistent e ∧
  stackOrdsWF e.stack ∧
  stackUnloadedWF e.stack ∧
  (e.currentOrd = -1 ∨ 0 ≤ e.currentOrd) ∧
  (0 ≤ e.currentOrd →
    e.currentOrd.toNat < e.stack.length ∧
    (e.stack.getD e.currentOrd.toNat (newFrame 0)).pref = e.validIndexPref ∧
    e.currentOrd = (countFinals e.arcs e.validIndexPref : Int) ∧
    chainInv e.arcs e.stack e.validIndexPref)

/-- The loop invariant of `SeekExact`'s FST descent at position `u` of
the target: stack slots indexed and unloaded, the current ord the
final-arc count of the first `u` bytes, `u` within the term, arcs and
term consistent up to `u`, and the frame chain correspondence up to `u`. -/
def descendWF (e : SegmentTermsEnum) (u : Nat) : Prop :=
  stackOrdsWF e.stack ∧ stackUnloadedWF e.stack ∧
  e.currentOrd = (countFinals e.arcs u : Int) ∧
  u ≤ e.term.length ∧
  arcsTermConsistent e.arcs e.term u ∧
  chainInv e.arcs e.stack u

/-- The §3 invariants of one directory entry: `doc_count ∈ [0, maxDoc]`,
`sum_doc_freq ≥ doc_count`, and `sum_total_term_freq ≥ sum_doc_freq`
when defined (≠ −1). -/
def dirEntryInvariants (maxDoc : Int) (e : DirEntry) : Prop :=
  0 ≤ e.docCount ∧ e.docCount ≤ maxDoc ∧ e.docCount ≤ e.sumDocFreq ∧
  (e.sumTotalTermFreq ≠ -1 → e.sumDocFreq ≤ e.sumTotalTermFreq)

/-- C1: the leaf-block scan is claimed to compare each entry's
`prefix ‖ suffix` against the target and skip / return `NOT_FOUND` /
return `FOUND` accordingly.  On the code, with a loaded one-entry leaf
block whose single entry equals the target (`nextEnt = 0 ≠ entCount`,
shared prefix matching), `scanToTermLeaf` panics "not implemented yet":
the `prefixMatches` helper, documented "Used only by assert", is an
unimplemented stub evaluated before any entry comparison (and the
comparison loop itself, via Go's unsigned `byte` subtraction widened to
`int`, can never produce the negative `cmp` the skip step needs). -/
theorem scanToTermLeaf_panics_before_compare :
    scanToTermLeaf frameLeaf [] false [97] true = .panic ("not implemented yet") := by
  decide

/-- C4: `scan_to_floor_frame` is claimed to walk the floor-data list and
re-point the frame at the selected sub-block.  On the code, with a
floored frame (`next_floor_label = 5`, one follow block in the floor
data) and target label 9, the walk panics "not implemented yet" — the
advancement loop is commented out in the source — while the no-op and
stay-on-current-block cases (target label 3) do work. -/
theorem scanToFloorFrame_advance_panics :
    frameFloor.scanToFloorFrame [9] = .panic ("not implemented yet") ∧
    frameFloor.scanToFloorFrame [3] = .ok frameFloor := by
  constructor <;> decide

/-- C10: `SeekExact` on a cursor whose field has no loaded FST index
fails at once with the panic "terms index was not loaded", returning
neither a result nor a Go error. -/
theorem seekExact_nil_index_panics (e : SegmentTermsEnum) (target : List Nat)
    (h : e.index = none) :
    e.seekExact target = .panic ("terms index was not loaded") := by
  unfold SegmentTermsEnum.seekExact
  rw [h]

/-- Witness for C10: a concrete index-less cursor. -/
theorem seekExact_nil_index_panics_witness :
    emptySTE.index = none ∧
    emptySTE.seekExact [97] = .panic ("terms index was not loaded") :=
  ⟨rfl, seekExact_nil_index_panics emptySTE [97] rfl⟩

/-- Counterexample for C6: constructing a field reader with
`num_terms = 0` does not fail with a corrupt-index error mentioning the
field name — it panics with the bare message "assert fail". -/
theorem newFieldReader_zero_terms_concrete :
    newFieldReader ("f1") 0 [24] (-1) 0 0 0 none = .panic ("assert fail") := by
  rfl

/-- C6 (amended): for every `num_terms ≤ 0`, `newFieldReader` refuses
construction, but via the assertion panic "assert fail" (no descriptive
corrupt-index error, no field name in the failure). -/
theorem newFieldReader_nonpositive_terms_assert_panic
    (fieldName : String) (numTerms : Int) (rootCode : List Nat)
    (stf sdf dc : Int) (isfp : Nat) (idx : Option FST) (h : numTerms ≤ 0) :
    newFieldReader fieldName numTerms rootCode stf sdf dc isfp idx = .panic ("assert fail") := by
  unfold newFieldReader
  simp [h]

/-- Witness for the amended C6 at `num_terms = −1`. -/
theorem newFieldReader_nonpositive_terms_assert_panic_witness :
    (-1 : Int) ≤ 0 ∧
    newFieldReader ("body") (-1) [24] (-1) 0 0 0 none = .panic ("assert fail") :=
  ⟨by decide,
   newFieldReader_nonpositive_terms_assert_panic ("body") (-1) [24] (-1) 0 0 0 none (by decide)⟩

/-- Counterexample for C7: `Terms` on a reader whose fields map is empty
does not return `none` for the absent field — it returns a (non-nil)
pointer to the Go zero-value `FieldReader` produced by the map access. -/
theorem terms_absent_field_not_none :
    BlockTreeTermsReader.Terms ⟨[]⟩ ("body") = some zeroFieldReader ∧
    BlockTreeTermsReader.Terms ⟨[]⟩ ("body") ≠ none := by
  constructor
  · rfl
  · intro h
    simp [BlockTreeTermsReader.Terms] at h

/-- C7 (amended): `terms(field_name)` never errors and never returns
`none`: it returns the stored per-field reader when the field was
loaded, and the zero-value field reader when the field is absent. -/
theorem terms_never_errors_total (r : BlockTreeTermsReader) (field : String) :
    (∀ fr, lookupField r.fields field = some fr → r.Terms field = some fr) ∧
    (lookupField r.fields field = none → r.Terms field = some zeroFieldReader) ∧
    r.Terms field ≠ none := by
  refine ⟨fun fr h => ?_, fun h => ?_, fun h => ?_⟩
  · simp [BlockTreeTermsReader.Terms, h]
  · simp [BlockTreeTermsReader.Terms, h]
  · simp [BlockTreeTermsReader.Terms] at h

/-- Witness for the amended C7: a present field is returned as stored. -/
theorem terms_never_errors_total_witness :
    BlockTreeTermsReader.Terms ⟨[(("a"), frPlain)]⟩ ("a") = some frPlain :=
  (terms_never_errors_total ⟨[(("a"), frPlain)]⟩ ("a")).1 frPlain (by rfl)

theorem lookupField_append_some (a b : List (String × FieldReader)) (s : String)
    (v : FieldReader) (h : lookupField a s = some v) : lookupField (a ++ b) s = some v := by
  induction a with
  | nil => simp [lookupField] at h
  | cons kv rest ih =>
    by_cases hk : kv.1 = s
    · cases kv
      simp_all [lookupField]
    · cases kv
      simp only [lookupField] at h ⊢
      simp only [if_neg hk] at h ⊢
      exact ih h

theorem lookupField_append_none (a b : List (String × FieldReader)) (s : String)
    (h : lookupField a s = none) : lookupField (a ++ b) s = lookupField b s := by
  induction a with
  | nil => simp [lookupField]
  | cons kv rest ih =>
    cases kv
    simp only [lookupField] at h ⊢
    split at h
    · cases h
    · rename_i hk
      simp only [List.cons_append, lookupField, if_neg hk]
      exact ih h

theorem loadFields_ok_aux (maxDoc : Int) (entries : List DirEntry) :
    ∀ (acc res : List (String × FieldReader)),
      loadFields maxDoc entries acc = .ok res →
      (∀ e ∈ entries, validateDirEntry maxDoc e = none) ∧
      (entries.map DirEntry.fieldName).Nodup ∧
      (∀ e ∈ entries, lookupField acc e.fieldName = none) := by
  induction entries with
  | nil => intro acc res _h; exact ⟨by simp, by simp, by simp⟩
  | cons e rest ih =>
    intro acc res h
    unfold loadFields at h
    cases hv : validateDirEntry maxDoc e with
    | some ge => rw [hv] at h; cases h
    | none =>
      rw [hv] at h
      cases hd : (lookupField acc e.fieldName).isSome with
      | true => rw [hd] at h; simp at h
      | false =>
        rw [hd] at h
        simp only [Bool.false_eq_true, if_false] at h
        have hdn : lookupField acc e.fieldName = none := by
          cases hq : lookupField acc e.fieldName
          · rfl
          · rw [hq] at hd; simp at hd
        cases hn : newFieldReader e.fieldName e.numTerms e.rootCode e.sumTotalTermFreq
            e.sumDocFreq e.docCount e.indexStartFP e.loadedIndex with
        | panic m => rw [hn] at h; cases h
        | goerr g => rw [hn] at h; cases h
        | ok fr =>
          rw [hn] at h
          obtain ⟨h1, h2, h3⟩ := ih (acc ++ [(e.fieldName, fr)]) res h
          have hrestacc : ∀ x ∈ rest, lookupField acc x.fieldName = none := by
            intro x hx
            cases hq : lookupField acc x.fieldName with
            | none => rfl
            | some v =>
              have := lookupField_append_some acc [(e.fieldName, fr)] x.fieldName v hq
              rw [h3 x hx] at this
              cases this
          refine ⟨?_, ?_, ?_⟩
          · intro x hx
            rcases List.mem_cons.mp hx with hx | hx
            · rw [hx]; exact hv
            · exact h1 x hx
          · rw [List.map_cons, List.nodup_cons]
            refine ⟨?_, h2⟩
            intro hmem
            obtain ⟨x, hx, hxe⟩ := List.mem_map.mp hmem
            have h3x := h3 x hx
            rw [lookupField_append_none acc _ _ (hrestacc x hx), hxe] at h3x
            simp [lookupField] at h3x
          · intro x hx
            rcases List.mem_cons.mp hx with hx | hx
            · rw [hx]; exact hdn
            · exact hrestacc x hx

theorem validateDirEntry_none_iff (maxDoc : Int) (e : DirEntry) :
    validateDirEntry maxDoc e = none ↔ dirEntryInvariants maxDoc e := by
  unfold validateDirEntry dirEntryInvariants
  split_ifs with h1 h2 h3
  · simp only [false_iff]
    intro ⟨c1, c2, _⟩
    rcases h1 with h1 | h1 <;> omega
  · simp only [false_iff]
    intro ⟨c1, c2, c3, _⟩
    omega
  · simp only [false_iff]
    intro ⟨c1, c2, c3, c4⟩
    exact absurd (c4 h3.1) (by omega)
  · simp only [true_iff]
    push_neg at h1 h3
    refine ⟨h1.1, h1.2, by omega, fun hne => h3 hne⟩

/-- C5: the directory-entry invariants are exactly what
`validateDirEntry` accepts; a violating entry makes the construction
loop fail with that entry's descriptive corrupt-index error; and a
successful construction implies every entry satisfied the invariants
and no field name was duplicated. -/
theorem loadFields_checks_invariants :
    (∀ (maxDoc : Int) (e : DirEntry),
      validateDirEntry maxDoc e = none ↔ dirEntryInvariants maxDoc e) ∧
    (∀ (maxDoc : Int) (e : DirEntry) (rest : List DirEntry)
      (acc : List (String × FieldReader)) (ge : GoErr),
      validateDirEntry maxDoc e = some ge →
      loadFields maxDoc (e :: rest) acc = .goerr ge) ∧
    (∀ (maxDoc : Int) (entries : List DirEntry),
      isOkB (loadFields maxDoc entries []) = true →
      (∀ e ∈ entries, dirEntryInvariants maxDoc e) ∧
      (entries.map DirEntry.fieldName).Nodup) := by
  refine ⟨validateDirEntry_none_iff, ?_, ?_⟩
  · intro maxDoc e rest acc ge hv
    unfold loadFields
    rw [hv]
  · intro maxDoc entries hok
    cases hres : loadFields maxDoc entries [] with
    | ok res =>
      obtain ⟨h1, h2, _⟩ := loadFields_ok_aux maxDoc entries [] res hres
      refine ⟨fun e he => ?_, h2⟩
      exact (validateDirEntry_none_iff maxDoc e).mp (h1 e he)
    | goerr g => rw [hres] at hok; simp [isOkB] at hok
    | panic m => rw [hres] at hok; simp [isOkB] at hok

/-- Witness for C5: a concrete one-entry directory that loads
successfully, so the invariants and no-duplicate conclusions hold of it. -/
theorem loadFields_checks_invariants_witness :
    dirEntryInvariants 10 dirEntryOk ∧ ([dirEntryOk].map DirEntry.fieldName).Nodup := by
  have h := loadFields_checks_invariants.2.2 10 [dirEntryOk] (by rfl)
  exact ⟨h.1 dirEntryOk (by simp), h.2⟩

theorem decide_and_flag (code : Nat) (i : Nat) :
    decide ((code &&& 2 ^ i) ≠ 0) = code.testBit i := by
  rw [Nat.and_two_pow]
  cases h : code.testBit i <;> simp [h, (by positivity : (0 : Nat) < 2 ^ i)]

theorem rewind_fields (f : Frame) :
    f.rewind.ord = f.ord ∧ f.rewind.pref = f.pref ∧ f.rewind.nextEnt = -1 ∧
    f.rewind.hasTerms = f.hasTermsOrig ∧ f.rewind.hasTermsOrig = f.hasTermsOrig ∧
    f.rewind.isFloor = f.isFloor ∧ f.rewind.fpOrig = f.fpOrig ∧ f.rewind.fp = f.fpOrig ∧
    f.rewind.isLeafBlock = f.isLeafBlock ∧ f.rewind.entCount = f.entCount ∧
    f.rewind.hasArc = f.hasArc := by
  unfold Frame.rewind
  dsimp only
  split <;> simp

theorem setFloorData_fields (f : Frame) (inPos : Nat) (source : List Nat) :
    (f.setFloorData inPos source).ord = f.ord ∧
    (f.setFloorData inPos source).pref = f.pref ∧
    (f.setFloorData inPos source).nextEnt = f.nextEnt ∧
    (f.setFloorData inPos source).hasTerms = f.hasTerms ∧
    (f.setFloorData inPos source).hasTermsOrig = f.hasTermsOrig ∧
    (f.setFloorData inPos source).isFloor = f.isFloor ∧
    (f.setFloorData inPos source).fpOrig = f.fpOrig ∧
    (f.setFloorData inPos source).fp = f.fp ∧
    (f.setFloorData inPos source).isLeafBlock = f.isLeafBlock ∧
    (f.setFloorData inPos source).entCount = f.entCount ∧
    (f.setFloorData inPos source).hasArc = f.hasArc := by
  unfold Frame.setFloorData
  simp

theorem growStack_length (stack : List Frame) (ord : Nat) :
    (growStack stack ord).length = max stack.length (1 + ord) := by
  unfold growStack
  by_cases h1 : ord = stack.length
  · subst h1
    rw [if_pos rfl]
    simp only [List.length_append, List.length_cons, List.length_nil]
    omega
  · by_cases h2 : ord > stack.length
    · simp only [if_neg h1, if_pos h2, List.length_append, List.length_map,
        List.length_range]
      omega
    · simp only [if_neg h1, if_neg h2]
      omega

theorem growStack_of_lt (stack : List Frame) (ord : Nat) (h : ord < stack.length) :
    growStack stack ord = stack := by
  unfold growStack
  rw [if_neg (by omega), if_neg (by omega)]

theorem frameAcq_ok (stack : List Frame) (ord : Nat) (f : Frame) (stack' : List Frame)
    (h : frameAcq stack ord = .ok (f, stack')) :
    ord < stack'.length ∧ stack'.getD ord (newFrame 0) = f ∧ f.ord = (ord : Int) ∧
    stack' = growStack stack ord := by
  unfold frameAcq at h
  split at h
  · cases h
  · rename_i hord
    simp only [GoRes.ok.injEq, Prod.mk.injEq] at h
    obtain ⟨hf, hs⟩ := h
    subst hf
    subst hs
    push_neg at hord
    refine ⟨?_, rfl, hord, rfl⟩
    rw [growStack_length]
    omega

theorem frameAcq_no_growth (stack : List Frame) (ord : Nat)
    (h1 : ord < stack.length) (h2 : (stack.getD ord (newFrame 0)).ord = (ord : Int)) :
    frameAcq stack ord = .ok (stack.getD ord (newFrame 0), stack) := by
  unfold frameAcq
  rw [growStack_of_lt stack ord h1]
  rw [if_neg (by simpa using h2)]

theorem pushFrameAt_flags (e : SegmentTermsEnum) (a : Bool) (fp length : Nat) (f : Frame)
    (e' : SegmentTermsEnum) (h : pushFrameAt e a fp length = .ok (f, e')) :
    ∃ f0 stack0, frameAcq e.stack (1 + e.currentOrd).toNat = .ok (f0, stack0) ∧
      f.fpOrig = fp ∧ (f.hasTerms = f0.hasTerms ∨ f.hasTerms = f0.hasTermsOrig) ∧
      f.isFloor = f0.isFloor := by
  unfold pushFrameAt at h
  cases hacq : frameAcq e.stack (1 + e.currentOrd).toNat with
  | panic m => rw [hacq] at h; cases h
  | goerr g => rw [hacq] at h; cases h
  | ok pr =>
    obtain ⟨f0, stack0⟩ := pr
    rw [hacq] at h
    dsimp only at h
    refine ⟨f0, stack0, rfl, ?_⟩
    by_cases hc : f0.fpOrig = fp ∧ f0.nextEnt ≠ -1
    · rw [if_pos (show f0.fpOrig = fp ∧ f0.nextEnt ≠ -1 from hc)] at h
      have hr := rewind_fields { f0 with hasArc := a }
      by_cases hrw : (f0.pref : Int) > e.targetBeforeCurrentLength
      · rw [if_pos (show (f0.pref : Int) > e.targetBeforeCurrentLength from hrw)] at h
        split at h
        · cases h
        · simp only [GoRes.ok.injEq, Prod.mk.injEq] at h
          obtain ⟨hf, _⟩ := h
          subst hf
          refine ⟨?_, Or.inr hr.2.2.2.1, hr.2.2.2.2.2.1⟩
          rw [hr.2.2.2.2.2.2.1]
          exact hc.1
      · rw [if_neg (show ¬ (f0.pref : Int) > e.targetBeforeCurrentLength from hrw)] at h
        split at h
        · cases h
        · simp only [GoRes.ok.injEq, Prod.mk.injEq] at h
          obtain ⟨hf, _⟩ := h
          subst hf
          exact ⟨hc.1, Or.inl rfl, rfl⟩
    · rw [if_neg (show ¬ (f0.fpOrig = fp ∧ f0.nextEnt ≠ -1) from hc)] at h
      simp only [GoRes.ok.injEq, Prod.mk.injEq] at h
      obtain ⟨hf, _⟩ := h
      subst hf
      exact ⟨rfl, Or.inl rfl, rfl⟩

theorem setFloorData_hasTerms (f : Frame) (i : Nat) (src : List Nat) :
    (f.setFloorData i src).hasTerms = f.hasTerms := (setFloorData_fields f i src).2.2.2.1

theorem setFloorData_hasTermsOrig (f : Frame) (i : Nat) (src : List Nat) :
    (f.setFloorData i src).hasTermsOrig = f.hasTermsOrig :=
  (setFloorData_fields f i src).2.2.2.2.1

theorem setFloorData_isFloor (f : Frame) (i : Nat) (src : List Nat) :
    (f.setFloorData i src).isFloor = f.isFloor := (setFloorData_fields f i src).2.2.2.2.2.1

theorem setFloorData_ord (f : Frame) (i : Nat) (src : List Nat) :
    (f.setFloorData i src).ord = f.ord := (setFloorData_fields f i src).1

/-- C8: a root code / frame-push output decodes, as a vLong `code`, into
the block file pointer `code >>> 2`, `has_terms` = bit 1, and `is_floor`
= bit 0: the field reader's `rootBlockFP` is the root code's vLong
shifted right by two, and the frame pushed from an accumulated output
carries exactly the two low bits as its flags and the high bits as its
origin file pointer. -/
theorem rootCode_decode_flags (bs : List Nat) (code n : Nat)
    (h : readVar 9 bs = some (code, n)) :
    (∀ (fieldName : String) (numTerms : Int) (stf sdf dc : Int) (isfp : Nat)
      (idx : Option FST) (fr : FieldReader),
      newFieldReader fieldName numTerms bs stf sdf dc isfp idx = .ok fr →
      fr.rootBlockFP = code >>> 2) ∧
    (∀ (e : SegmentTermsEnum) (arcPresent : Bool) (length : Nat) (f : Frame)
      (e' : SegmentTermsEnum),
      pushFrame e arcPresent bs length = .ok (f, e') →
      f.hasTerms = code.testBit 1 ∧ f.isFloor = code.testBit 0 ∧ f.fpOrig = code >>> 2) := by
  constructor
  · intro fieldName numTerms stf sdf dc isfp idx fr hok
    unfold newFieldReader at hok
    split at hok
    · cases hok
    · rw [h] at hok
      simp only [GoRes.ok.injEq] at hok
      rw [← hok]
      rfl
  · intro e arcPresent length f e' hok
    unfold pushFrame at hok
    dsimp only at hok
    rw [show ({ bytes := bs, pos := 0 } : ByteArrayDataInput).readVLong
        = some (code, { bytes := bs, pos := 0 + n }) from by
      unfold ByteArrayDataInput.readVLong
      simp only [List.drop_zero]
      rw [h]] at hok
    dsimp only at hok
    cases hacq : frameAcq e.stack (1 + e.currentOrd).toNat with
    | panic m => rw [hacq] at hok; cases hok
    | goerr g => rw [hacq] at hok; cases hok
    | ok pr =>
      obtain ⟨f0, stack0⟩ := pr
      rw [hacq] at hok
      dsimp only at hok
      obtain ⟨hlt, hget, hord, _⟩ := frameAcq_ok _ _ _ _ hacq
      split at hok <;>
      · rename_i hfl
        obtain ⟨f1, stack1, hacq2, hfp, hht, hif⟩ := pushFrameAt_flags _ _ _ _ _ _ hok
        dsimp only at hacq2
        obtain ⟨hlt2, hget2, hord2, hgrow2⟩ := frameAcq_ok _ _ _ _ hacq2
        subst hgrow2
        rw [growStack_of_lt _ _ (by simpa using hlt)] at hget2
        rw [List.getD_eq_getElem?_getD, List.getElem?_set_self (by simpa using hlt)] at hget2
        simp only [Option.getD_some] at hget2
        subst hget2
        refine ⟨?_, ?_, ?_⟩
        · rcases hht with hht | hht <;>
            simp only [hht, setFloorData_hasTerms, setFloorData_hasTermsOrig] <;>
            exact decide_and_flag code 1
        · simp only [hif, setFloorData_isFloor]
          exact decide_and_flag code 0
        · exact hfp

/-- Witness for C8: the single-byte root code `[14]` decodes to the vLong
`14`, and the field reader built from it has `rootBlockFP = 14 >>> 2`. -/
theorem rootCode_decode_flags_witness :
    readVar 9 [14] = some (14, 1) ∧
    (goOr zeroFieldReader (newFieldReader ("f1") 1 [14] (-1) 0 0 0 none)).rootBlockFP
      = 14 >>> 2 :=
  ⟨by decide,
   (rootCode_decode_flags [14] 14 1 (by decide)).1 ("f1") 1 (-1) 0 0 0 none
     (goOr zeroFieldReader (newFieldReader ("f1") 1 [14] (-1) 0 0 0 none)) (by rfl)⟩

theorem loadAndScan_trace (e : SegmentTermsEnum) (target : List Nat) (tr : List SeekEvent)
    (b : Bool) (e' : SegmentTermsEnum) (tr' : List SeekEvent)
    (h : loadAndScan e target tr = .ok (b, e', tr')) :
    ∃ cnt, tr' = tr ++ [SeekEvent.loadBlockCall] ++
      List.replicate cnt SeekEvent.timRead ++ [SeekEvent.scanToTermCall] := by
  unfold loadAndScan at h
  cases hlb : loadBlock e.currentFrame e.timData e.inOpt with
  | panic m => rw [hlb] at h; cases h
  | goerr g => rw [hlb] at h; cases h
  | ok q =>
    obtain ⟨f', inn, cnt, er⟩ := q
    rw [hlb] at h
    dsimp only at h
    cases hsc : scanToTerm (SegmentTermsEnum.currentFrame { e with stack := e.stack.set e.currentOrd.toNat f', inOpt := some inn }) e.term e.termExists target true with
    | panic m => rw [hsc] at h; cases h
    | goerr g => rw [hsc] at h; cases h
    | ok q2 =>
      obtain ⟨st, cf2, term2, tex2⟩ := q2
      rw [hsc] at h
      dsimp only at h
      refine ⟨cnt, ?_⟩
      split at h <;>
      · simp only [GoRes.ok.injEq, Prod.mk.injEq] at h
        obtain ⟨_, _, h3⟩ := h
        subst h3
        simp

set_option maxHeartbeats 1000000 in
theorem descendLoop_trace (fst : FST) (target : List Nat) :
    ∀ (fuel : Nat) (e : SegmentTermsEnum) (arc : Arc) (output : List Nat) (u : Nat)
      (tr : List SeekEvent) (b : Bool) (e' : SegmentTermsEnum) (tr' : List SeekEvent),
      descendLoop fst target fuel e arc output u tr = .ok (b, e', tr') →
      SeekEvent.fastNotFound ∉ tr →
      SeekEvent.fastNotFound ∈ tr' →
      b = false ∧ tr' = tr ++ [SeekEvent.fastNotFound] := by
  intro fuel
  induction fuel with
  | zero =>
    intro e arc output u tr b e' tr' h _ _
    cases h
  | succ fuel ih =>
    intro e arc output u tr b e' tr' h hnotin hin
    unfold descendLoop at h
    dsimp only at h
    repeat' split at h
    all_goals first
      | exact ⟨rfl, rfl⟩
      | exact ih _ _ _ _ _ _ _ _ h hnotin hin
      | (obtain ⟨cnt, hc⟩ := loadAndScan_trace _ _ _ _ _ _ h
         subst hc
         exfalso
         simp only [List.append_assoc, List.mem_append, List.mem_singleton,
           List.mem_replicate] at hin
         rcases hin with hin | hin | hin | hin <;> simp_all)
      | (simp only [GoRes.ok.injEq, Prod.mk.injEq] at h
         obtain ⟨hb, _, htr⟩ := h
         exact ⟨hb.symm, htr.symm⟩)
      | cases h

set_option maxHeartbeats 1000000 in
theorem seekReuse_trace (fst : FST) (e : SegmentTermsEnum) (target : List Nat)
    (b : Bool) (e' : SegmentTermsEnum) (tr' : List SeekEvent)
    (h : seekReuse fst e target = .ok (b, e', tr'))
    (hin : SeekEvent.fastNotFound ∈ tr') :
    b = false ∧ tr' = [SeekEvent.fastNotFound] := by
  unfold seekReuse seekReuseDecide at h
  repeat' split at h
  all_goals first
    | (have hd := descendLoop_trace fst target _ _ _ _ _ _ _ _ _ h (by simp) hin
       simpa using hd)
    | simp at hin
    | (simp only [GoRes.ok.injEq, Prod.mk.injEq] at h
       obtain ⟨_, _, htr⟩ := h
       rw [← htr] at hin
       simp at hin)
    | cases h

set_option maxHeartbeats 1000000 in
theorem seekFresh_trace (fst : FST) (e : SegmentTermsEnum) (target : List Nat)
    (b : Bool) (e' : SegmentTermsEnum) (tr' : List SeekEvent)
    (h : seekFresh fst e target = .ok (b, e', tr'))
    (hin : SeekEvent.fastNotFound ∈ tr') :
    b = false ∧ tr' = [SeekEvent.fastNotFound] := by
  unfold seekFresh at h
  repeat' split at h
  all_goals first
    | (have hd := descendLoop_trace fst target _ _ _ _ _ _ _ _ _ h (by simp) hin
       simpa using hd)
    | simp at hin
    | cases h

/-- C2: when a `SeekExact` call ends on the FST-proved-absence path (the
`fastNotFound` event is in its trace), the call returned `false` and its
whole trace is that single event: no `tim` read happened and neither
`loadBlock` nor `scanToTerm` was invoked. -/
theorem seekExact_fastNotFound_no_tim_reads (e : SegmentTermsEnum) (target : List Nat)
    (h : SeekEvent.fastNotFound ∈ seekTrace (e.seekExact target)) :
    seekBool (e.seekExact target) = some false ∧
    seekTrace (e.seekExact target) = [SeekEvent.fastNotFound] ∧
    SeekEvent.timRead ∉ seekTrace (e.seekExact target) ∧
    SeekEvent.loadBlockCall ∉ seekTrace (e.seekExact target) ∧
    SeekEvent.scanToTermCall ∉ seekTrace (e.seekExact target) := by
  cases hrun : e.seekExact target with
  | goerr g => rw [hrun] at h; simp [seekTrace] at h
  | panic m => rw [hrun] at h; simp [seekTrace] at h
  | ok trip =>
    obtain ⟨b, e2, tr⟩ := trip
    rw [hrun] at h
    simp only [seekTrace] at h
    unfold SegmentTermsEnum.seekExact at hrun
    cases hidx : e.index with
    | none => rw [hidx] at hrun; cases hrun
    | some fst =>
      rw [hidx] at hrun
      dsimp only at hrun
      split at hrun
      · cases hrun
      · cases hrun
      · split at hrun
        · obtain ⟨hb, htr⟩ := seekReuse_trace fst _ target b e2 tr hrun h
          subst hb
          subst htr
          simp [seekBool, seekTrace]
        · obtain ⟨hb, htr⟩ := seekFresh_trace fst _ target b e2 tr hrun h
          subst hb
          subst htr
          simp [seekBool, seekTrace]

/-- Witness for C2: the concrete fast not-found seek on `enumPlain`. -/
theorem seekExact_fastNotFound_no_tim_reads_witness :
    SeekEvent.fastNotFound ∈ seekTrace (enumPlain.seekExact [97, 98]) ∧
    seekBool (enumPlain.seekExact [97, 98]) = some false ∧
    SeekEvent.timRead ∉ seekTrace (enumPlain.seekExact [97, 98]) :=
  have h := seekExact_fastNotFound_no_tim_reads enumPlain [97, 98] (by decide)
  ⟨by decide, h.1, h.2.2.1⟩

/-- C3: counterexample — the observable `term()` after `SeekExact(t)` does
depend on the sequence of prior seeks. From the freshly constructed cursor
`enumPlain`, `SeekExact [97, 98]` leaves the term buffer `[97]`; but on the
same cursor after one prior `SeekExact [120]` (the state `enumAfterX`), the
same call leaves `[120, 97]`: line 733 appends the next target byte to the
term buffer instead of writing it at position `targetUpto` with truncation
(as line 785 does on the fresh-descent path), so stale bytes of the prior
seek survive. -/
theorem seekExact_term_depends_on_history :
    enumAfterX = seekState emptySTE (enumPlain.seekExact [120]) ∧
    seekBool (enumPlain.seekExact [97, 98]) = seekBool (enumAfterX.seekExact [97, 98]) ∧
    seekTerm (enumPlain.seekExact [97, 98]) = some [97] ∧
    seekTerm (enumAfterX.seekExact [97, 98]) = some [120, 97] :=
  ⟨rfl, rfl, rfl, rfl⟩

theorem listSet_getD {α : Type} (s : List α) (i k : Nat) (a d : α) :
    (s.set i a).getD k d = if i = k ∧ i < s.length then a else s.getD k d := by
  by_cases h : i = k ∧ i < s.length
  · obtain ⟨he, hl⟩ := h
    subst he
    rw [if_pos ⟨rfl, hl⟩, List.getD_eq_getElem?_getD, List.getElem?_set_self hl]
    rfl
  · rw [if_neg h]
    by_cases he : i = k
    · subst he
      have hl : ¬ i < s.length := fun hl => h ⟨rfl, hl⟩
      rw [List.set_eq_of_length_le (by omega)]
    · rw [List.getD_eq_getElem?_getD, List.getElem?_set_ne he, ← List.getD_eq_getElem?_getD]

theorem listSet_getD_self {α : Type} (s : List α) (i : Nat) (d : α) :
    (s.set i (s.getD i d)).getD k d = s.getD k d := by
  rw [listSet_getD]
  split
  · rename_i hc
    rw [hc.1]
  · rfl

theorem growStack_getD_lt (s : List Frame) (ord k : Nat) (h : k < s.length) :
    (growStack s ord).getD k (newFrame 0) = s.getD k (newFrame 0) := by
  unfold growStack
  split
  · rw [List.getD_eq_getElem?_getD, List.getElem?_append_left h, ← List.getD_eq_getElem?_getD]
  · split
    · rw [List.getD_eq_getElem?_getD, List.getElem?_append_left h, ← List.getD_eq_getElem?_getD]
    · rfl

theorem listGetD_out {α : Type} (l : List α) (k : Nat) (d : α) (h : l.length ≤ k) :
    l.getD k d = d := by
  rw [List.getD_eq_getElem?_getD, List.getElem?_eq_none h]
  rfl

theorem listGetD_append_right {α : Type} (l l' : List α) (k : Nat) (d : α)
    (h : l.length ≤ k) : (l ++ l').getD k d = l'.getD (k - l.length) d := by
  rw [List.getD_eq_getElem?_getD, List.getElem?_append_right h, ← List.getD_eq_getElem?_getD]

theorem listGetD_append_left {α : Type} (l l' : List α) (k : Nat) (d : α)
    (h : k < l.length) : (l ++ l').getD k d = l.getD k d := by
  rw [List.getD_eq_getElem?_getD, List.getElem?_append_left h, ← List.getD_eq_getElem?_getD]

theorem growStack_getD_ge (s : List Frame) (ord k : Nat) (h1 : s.length ≤ k)
    (h2 : k < (growStack s ord).length) : (growStack s ord).getD k (newFrame 0) = newFrame k := by
  rw [growStack_length] at h2
  unfold growStack
  split
  · rename_i hc
    have hk : k = s.length := by omega
    subst hk
    rw [listGetD_append_right _ _ _ _ h1, Nat.sub_self]
    show newFrame ((ord : Nat) : Int) = newFrame ((s.length : Nat) : Int)
    rw [hc]
  · split
    · rename_i h1' hc
      rw [listGetD_append_right _ _ _ _ h1]
      rw [List.getD_eq_getElem?_getD, List.getElem?_map, List.getElem?_range (by omega)]
      show newFrame (((s.length + (k - s.length) : Nat) : Int)) = newFrame ((k : Nat) : Int)
      congr 1
      omega
    · rename_i h1' hc
      omega

theorem stackGrown_of_growStack (s : List Frame) (ord : Nat) :
    StackGrown s (growStack s ord) := by
  refine ⟨by rw [growStack_length]; omega, ?_, ?_⟩
  · intro k hk
    exact growStack_getD_lt s ord k hk
  · intro k h1 h2
    exact growStack_getD_ge s ord k h1 h2

theorem stackGrown_rfl (s : List Frame) : StackGrown s s :=
  ⟨le_refl _, fun _ _ => rfl, fun _ h1 h2 => absurd h2 (by omega)⟩

theorem stackGrown_trans {s t w : List Frame} (h1 : StackGrown s t) (h2 : StackGrown t w) :
    StackGrown s w := by
  obtain ⟨hl1, ha1, hb1⟩ := h1
  obtain ⟨hl2, ha2, hb2⟩ := h2
  refine ⟨le_trans hl1 hl2, ?_, ?_⟩
  · intro k hk
    rw [ha2 k (by omega), ha1 k hk]
  · intro k hk1 hk2
    by_cases hm : k < t.length
    · rw [ha2 k hm, hb1 k hk1 hm]
    · exact hb2 k (by omega) hk2

theorem frameUnloaded_newFrame (ord : Int) : frameUnloaded (newFrame ord) :=
  Or.inr ⟨rfl, rfl, rfl, rfl, rfl, rfl⟩

theorem stackOrdsWF_grown {s s' : List Frame} (h : stackOrdsWF s) (hg : StackGrown s s') :
    stackOrdsWF s' := by
  intro k hk
  by_cases hm : k < s.length
  · rw [hg.2.1 k hm]
    exact h k hm
  · rw [hg.2.2 k (by omega) hk]
    rfl

theorem stackUnloadedWF_grown {s s' : List Frame} (h : stackUnloadedWF s)
    (hg : StackGrown s s') : stackUnloadedWF s' := by
  intro k hk
  by_cases hm : k < s.length
  · rw [hg.2.1 k hm]
    exact h k hm
  · rw [hg.2.2 k (by omega) hk]
    exact frameUnloaded_newFrame _

theorem stackOrdsWF_set {s : List Frame} {f : Frame} {i : Nat} (h : stackOrdsWF s)
    (hf : f.ord = (i : Int)) : stackOrdsWF (s.set i f) := by
  intro k hk
  rw [List.length_set] at hk
  rw [listSet_getD]
  split
  · rename_i hc
    rw [hf, hc.1]
  · exact h k hk

theorem stackUnloadedWF_set {s : List Frame} {f : Frame} {i : Nat} (h : stackUnloadedWF s)
    (hf : frameUnloaded f) : stackUnloadedWF (s.set i f) := by
  intro k hk
  rw [List.length_set] at hk
  rw [listSet_getD]
  split
  · exact hf
  · exact h k hk

theorem countFinals_succ (arcs : List Arc) (u : Nat) :
    countFinals arcs (u + 1) =
      countFinals arcs u + (if (arcs.getD (1 + u) zeroArc).IsFinal then 1 else 0) := rfl

theorem countFinals_le (arcs : List Arc) {u v : Nat} (h : u ≤ v) :
    countFinals arcs u ≤ countFinals arcs v := by
  induction v with
  | zero =>
    have hu : u = 0 := by omega
    subst hu
    exact le_refl _
  | succ n ih =>
    rcases Nat.lt_or_ge u (n + 1) with hlt | hge
    · have h2 := ih (by omega)
      rw [countFinals_succ]
      split <;> omega
    · have hu : u = n + 1 := by omega
      subst hu
      exact le_refl _

theorem countFinals_congr (a b : List Arc) (u : Nat)
    (h : ∀ i, i < u → a.getD (1 + i) zeroArc = b.getD (1 + i) zeroArc) :
    countFinals a u = countFinals b u := by
  induction u with
  | zero => rfl
  | succ n ih =>
    rw [countFinals_succ, countFinals_succ, ih (fun i hi => h i (by omega)), h n (by omega)]

theorem countFinals_gap (arcs : List Arc) {a b : Nat} (hab : a ≤ b)
    (h : ∀ j, a ≤ j → j < b → (arcs.getD (1 + j) zeroArc).IsFinal = false) :
    countFinals arcs b = countFinals arcs a := by
  induction b with
  | zero =>
    have ha : a = 0 := by omega
    subst ha
    rfl
  | succ n ih =>
    rcases Nat.lt_or_ge a (n + 1) with hlt | hge
    · rw [countFinals_succ, h n (by omega) (by omega),
        ih (by omega) (fun j hj1 hj2 => h j hj1 (by omega))]
      rfl
    · have ha : a = n + 1 := by omega
      subst ha
      rfl

theorem getArcs_getD (arcs : List Arc) (n k : Nat) :
    (getArcs arcs n).getD k zeroArc = arcs.getD k zeroArc := by
  unfold getArcs
  split
  · by_cases hk : k < arcs.length
    · rw [listGetD_append_left _ _ _ _ hk]
    · rw [listGetD_append_right _ _ _ _ (by omega), listGetD_out arcs _ _ (by omega)]
      by_cases h0 : k - arcs.length = 0
      · rw [h0]
        rfl
      · rw [listGetD_out _ _ _ (by show 1 ≤ k - arcs.length; omega)]
  · split
    · by_cases hk : k < arcs.length
      · rw [listGetD_append_left _ _ _ _ hk]
      · rw [listGetD_append_right _ _ _ _ (by omega), listGetD_out arcs _ _ (by omega)]
        by_cases h2 : k - arcs.length < 1 + n - arcs.length
        · rw [List.getD_eq_getElem?_getD, List.getElem?_replicate_of_lt h2]
          rfl
        · rw [listGetD_out _ _ _ (by rw [List.length_replicate]; omega)]
    · rfl

theorem getArcs_length_ge (arcs : List Arc) (n : Nat) :
    arcs.length ≤ (getArcs arcs n).length := by
  unfold getArcs
  split
  · simp
  · split
    · simp
    · exact le_refl _

theorem getArcs_length_gt (arcs : List Arc) (n : Nat) : n < (getArcs arcs n).length := by
  unfold getArcs
  split
  · rename_i hc
    simp [hc]
  · split
    · rename_i h1 h2
      simp only [List.length_append, List.length_replicate]
      omega
    · rename_i h1 h2
      omega

theorem countFinals_getArcs (arcs : List Arc) (n u : Nat) :
    countFinals (getArcs arcs n) u = countFinals arcs u :=
  countFinals_congr _ _ _ (fun i _ => getArcs_getD arcs n (1 + i))

theorem scanToFloorFrame_ok_eq (f : Frame) (t : List Nat) (f' : Frame)
    (h : f.scanToFloorFrame t = .ok f') : f' = f := by
  unfold Frame.scanToFloorFrame at h
  split at h
  · cases h
    rfl
  · dsimp only at h
    split at h
    · cases h
      rfl
    · split at h
      · cases h
      · cases h

theorem scanToTerm_ok_shape (f : Frame) (term : List Nat) (tex : Bool) (target : List Nat)
    (ex : Bool) (r : SeekStatus × Frame × List Nat × Bool)
    (h : scanToTerm f term tex target ex = .ok r) :
    f.isLeafBlock = true ∧ f.nextEnt ≠ -1 ∧ f.nextEnt = (f.entCount : Int) := by
  unfold scanToTerm at h
  split at h
  · rename_i hleaf
    unfold scanToTermLeaf at h
    split at h
    · cases h
    · rename_i hne
      dsimp only at h
      split at h
      · rename_i heq
        exact ⟨hleaf, hne, heq⟩
      · simp only [Frame.prefixMatches] at h
        cases h
  · unfold scanToTermNonLeaf at h
    cases h

theorem loadBlockStats_shape (f3 : Frame) (r3in : IndexInput) (f' : Frame)
    (inn : IndexInput) (cnt : Nat) (er : Option GoErr)
    (h : loadBlockStats f3 r3in = .ok (f', inn, cnt, er)) :
    (f'.nextEnt = f3.nextEnt ∧ f'.entCount = f3.entCount) ∨
    (f'.nextEnt = 0 ∧ f'.entCount = f3.entCount) := by
  unfold loadBlockStats at h
  dsimp only at h
  repeat' split at h
  all_goals
    first
    | (cases h <;> exact Or.inl ⟨rfl, rfl⟩)
    | (cases h <;> exact Or.inr ⟨rfl, rfl⟩)

theorem loadBlockSuffixes_shape (f1 : Frame) (r2 : Nat × IndexInput × Bool) (f' : Frame)
    (inn : IndexInput) (cnt : Nat) (er : Option GoErr)
    (h : loadBlockSuffixes f1 r2 = .ok (f', inn, cnt, er)) :
    (f'.nextEnt = f1.nextEnt ∧ f'.entCount = f1.entCount) ∨
    (f'.nextEnt = 0 ∧ f'.entCount = f1.entCount) := by
  unfold loadBlockSuffixes at h
  dsimp only at h
  repeat' split at h
  all_goals
    first
    | (cases h <;> exact Or.inl ⟨rfl, rfl⟩)
    | (rcases loadBlockStats_shape _ _ _ _ _ _ h with ⟨h1, h2⟩ | ⟨h1, h2⟩
       · exact Or.inl ⟨h1, h2⟩
       · exact Or.inr ⟨h1, h2⟩)

theorem loadBlock_unloaded (f : Frame) (tim : List Nat) (inOpt : Option IndexInput)
    (f' : Frame) (inn : IndexInput) (cnt : Nat) (er : Option GoErr)
    (hu : frameUnloaded f) (h : loadBlock f tim inOpt = .ok (f', inn, cnt, er)) :
    ¬ (f'.isLeafBlock = true ∧ f'.nextEnt ≠ -1 ∧ f'.nextEnt = (f'.entCount : Int)) := by
  rintro ⟨hleaf, hne, hcount⟩
  unfold loadBlock at h
  dsimp only at h
  split at h
  · rename_i hfne
    simp only [GoRes.ok.injEq, Prod.mk.injEq] at h
    obtain ⟨hf, -⟩ := h
    subst hf
    rcases hu with hu | hu
    · exact hfne hu
    · rw [hu.2.2.2.2.1] at hleaf
      cases hleaf
  · rename_i hfe
    have hfe' : f.nextEnt = -1 := by omega
    repeat' split at h
    all_goals
      first
      | (cases h <;> exact hne hfe')
      | (rename_i hentz hfloorz
         rcases loadBlockSuffixes_shape _ _ _ _ _ _ h with ⟨h1, h2⟩ | ⟨h1, h2⟩
         · exact hne (by rw [h1]; exact hfe')
         · apply hentz
           have hz : f'.entCount = 0 := by omega
           exact h2.symm.trans hz)

theorem staticFrame_shape : staticFrame.isLeafBlock = false ∧ staticFrame.ord = -1 :=
  ⟨rfl, rfl⟩

theorem frameUnloaded_getD (s : List Frame) (k : Nat) (hun : stackUnloadedWF s) :
    frameUnloaded (s.getD k (newFrame 0)) := by
  by_cases hk : k < s.length
  · exact hun k hk
  · rw [listGetD_out _ _ _ (by omega)]
    exact frameUnloaded_newFrame 0

theorem currentFrame_unloaded (e : SegmentTermsEnum) (hun : stackUnloadedWF e.stack) :
    frameUnloaded e.currentFrame := by
  unfold SegmentTermsEnum.currentFrame
  split
  · exact frameUnloaded_newFrame (-1)
  · exact frameUnloaded_getD _ _ hun

theorem loadAndScan_not_ok (e : SegmentTermsEnum) (target : List Nat) (tr : List SeekEvent)
    (hun : stackUnloadedWF e.stack) (r : Bool × SegmentTermsEnum × List SeekEvent) :
    loadAndScan e target tr ≠ .ok r := by
  intro h
  unfold loadAndScan at h
  cases hlb : loadBlock e.currentFrame e.timData e.inOpt with
  | panic m => rw [hlb] at h; cases h
  | goerr g => rw [hlb] at h; cases h
  | ok q =>
    obtain ⟨cf', inn, cnt, er⟩ := q
    rw [hlb] at h
    dsimp only at h
    have hshape := loadBlock_unloaded _ _ _ _ _ _ _ (currentFrame_unloaded e hun) hlb
    cases hsc : scanToTerm (SegmentTermsEnum.currentFrame { e with stack := e.stack.set e.currentOrd.toNat cf', inOpt := some inn }) e.term e.termExists target true with
    | panic m => rw [hsc] at h; cases h
    | goerr g => rw [hsc] at h; cases h
    | ok q2 =>
      have hok := scanToTerm_ok_shape _ _ _ _ _ _ hsc
      revert hok
      unfold SegmentTermsEnum.currentFrame
      dsimp only
      split
      · rintro ⟨hl, -, -⟩
        rw [staticFrame_shape.1] at hl
        cases hl
      · rw [listSet_getD]
        split
        · exact hshape
        · rintro ⟨hl, hn, hc⟩
          rcases frameUnloaded_getD e.stack e.currentOrd.toNat hun with hx | hx
          · exact hn hx
          · rw [hx.2.2.2.2.1] at hl
            cases hl

theorem psLoop_ok (fst : FST) : ∀ (fuel : Nat) (e : SegmentTermsEnum) (isf : Bool)
    (ord : Nat) (e2 : SegmentTermsEnum), psLoop fst e isf ord fuel = .ok e2 →
    e2 = { e with stack := e2.stack } ∧ StackGrown e.stack e2.stack := by
  intro fuel
  induction fuel with
  | zero =>
    intro e isf ord e2 h
    cases h
  | succ n ih =>
    intro e isf ord e2 h
    unfold psLoop at h
    cases hacq : frameAcq e.stack ord with
    | panic m => rw [hacq] at h; cases h
    | goerr g => rw [hacq] at h; cases h
    | ok pr =>
      obtain ⟨f, stack0⟩ := pr
      rw [hacq] at h
      dsimp only at h
      obtain ⟨hlt, hget, hord, hgrow⟩ := frameAcq_ok _ _ _ _ hacq
      repeat' split at h
      all_goals
        first
        | (cases h <;>
            exact ⟨rfl, by rw [hgrow]; exact stackGrown_of_growStack e.stack ord⟩)
        | (obtain ⟨he, hg⟩ := ih _ _ _ _ h
           exact ⟨he, stackGrown_trans
             (by rw [hgrow]; exact stackGrown_of_growStack e.stack ord) hg⟩)
        | cases h

theorem enumWF_stack_grown {e : SegmentTermsEnum} {s' : List Frame} (h : enumWF e)
    (hg : StackGrown e.stack s') : enumWF { e with stack := s' } := by
  obtain ⟨h1, h2, h3, h4, h5, h6, h7⟩ := h
  refine ⟨h1, h2, h3, stackOrdsWF_grown h4 hg, stackUnloadedWF_grown h5 hg, h6, ?_⟩
  intro hc
  obtain ⟨hb, hp, hcf, hch⟩ := h7 hc
  refine ⟨lt_of_lt_of_le hb hg.1, ?_, hcf, ?_⟩
  · rw [hg.2.1 _ hb]
    exact hp
  · intro i hi
    obtain ⟨hi1, hi2, hi3⟩ := hch i hi
    refine ⟨lt_of_lt_of_le hi1 hg.1, ?_, ?_⟩
    · rw [hg.2.1 _ hi1]
      exact hi2
    · rw [hg.2.1 _ hi1]
      exact hi3

theorem frameUnloaded_of_eqs {g f : Frame} (h : frameUnloaded f)
    (h1 : g.nextEnt = f.nextEnt) (h2 : g.fpOrig = f.fpOrig) (h3 : g.fp = f.fp)
    (h4 : g.pref = f.pref) (h5 : g.isLeafBlock = f.isLeafBlock)
    (h6 : g.entCount = f.entCount) : frameUnloaded g := by
  rcases h with h | h
  · exact Or.inl (by rw [h1, h])
  · refine Or.inr ⟨?_, ?_, ?_, ?_, ?_, ?_⟩
    · rw [h1]; exact h.1
    · rw [h2]; exact h.2.1
    · rw [h3]; exact h.2.2.1
    · rw [h4]; exact h.2.2.2.1
    · rw [h5]; exact h.2.2.2.2.1
    · rw [h6]; exact h.2.2.2.2.2

theorem pushFrameAt_wf (e : SegmentTermsEnum) (a : Bool) (fp len : Nat) (f : Frame)
    (e' : SegmentTermsEnum)
    (hin : (1 + e.currentOrd).toNat < e.stack.length)
    (hso : (e.stack.getD (1 + e.currentOrd).toNat (newFrame 0)).ord
      = (((1 + e.currentOrd).toNat : Nat) : Int))
    (hsu : frameUnloaded (e.stack.getD (1 + e.currentOrd).toNat (newFrame 0)))
    (h : pushFrameAt e a fp len = .ok (f, e')) :
    f.ord = (((1 + e.currentOrd).toNat : Nat) : Int) ∧ f.pref = len ∧ frameUnloaded f ∧
    e' = { e with stack := e.stack.set (1 + e.currentOrd).toNat f } := by
  unfold pushFrameAt at h
  rw [frameAcq_no_growth _ _ hin hso] at h
  dsimp only at h
  by_cases hc : (e.stack.getD (1 + e.currentOrd).toNat (newFrame 0)).fpOrig = fp ∧
      (e.stack.getD (1 + e.currentOrd).toNat (newFrame 0)).nextEnt ≠ -1
  · rw [if_pos (show (e.stack.getD (1 + e.currentOrd).toNat (newFrame 0)).fpOrig = fp ∧
      (e.stack.getD (1 + e.currentOrd).toNat (newFrame 0)).nextEnt ≠ -1 from hc)] at h
    by_cases hrw : ((e.stack.getD (1 + e.currentOrd).toNat (newFrame 0)).pref : Int) >
        e.targetBeforeCurrentLength
    · rw [if_pos (show ((e.stack.getD (1 + e.currentOrd).toNat (newFrame 0)).pref : Int) >
        e.targetBeforeCurrentLength from hrw)] at h
      split at h
      · cases h
      · rename_i hassert
        simp only [GoRes.ok.injEq, Prod.mk.injEq] at h
        obtain ⟨hf, he⟩ := h
        subst hf
        subst he
        have hr := rewind_fields
          { e.stack.getD (1 + e.currentOrd).toNat (newFrame 0) with hasArc := a }
        refine ⟨?_, ?_, Or.inl hr.2.2.1, rfl⟩
        · rw [hr.1]
          exact hso
        · have h2 : ¬ ((len : Int) ≠
            ((({ e.stack.getD (1 + e.currentOrd).toNat (newFrame 0) with
                hasArc := a }).rewind.pref : Nat) : Int)) := hassert
          push_neg at h2
          exact_mod_cast h2.symm
    · rw [if_neg (show ¬ (((e.stack.getD (1 + e.currentOrd).toNat (newFrame 0)).pref : Int) >
        e.targetBeforeCurrentLength) from hrw)] at h
      split at h
      · cases h
      · rename_i hassert
        simp only [GoRes.ok.injEq, Prod.mk.injEq] at h
        obtain ⟨hf, he⟩ := h
        subst hf
        subst he
        refine ⟨hso, ?_, ?_, rfl⟩
        · have h2 : ¬ ((len : Int) ≠
            (((e.stack.getD (1 + e.currentOrd).toNat (newFrame 0)).pref : Nat) : Int)) :=
            hassert
          push_neg at h2
          exact_mod_cast h2.symm
        · rcases hsu with hx | hx
          · exact absurd hx hc.2
          · exact Or.inr hx
  · rw [if_neg (show ¬ ((e.stack.getD (1 + e.currentOrd).toNat (newFrame 0)).fpOrig = fp ∧
      (e.stack.getD (1 + e.currentOrd).toNat (newFrame 0)).nextEnt ≠ -1) from hc)] at h
    simp only [GoRes.ok.injEq, Prod.mk.injEq] at h
    obtain ⟨hf, he⟩ := h
    subst hf
    subst he
    exact ⟨hso, rfl, Or.inl rfl, rfl⟩

theorem pushFrame_wf (e : SegmentTermsEnum) (a : Bool) (frameData : List Nat) (len : Nat)
    (f : Frame) (e' : SegmentTermsEnum)
    (hun : stackUnloadedWF e.stack)
    (h : pushFrame e a frameData len = .ok (f, e')) :
    f.ord = (((1 + e.currentOrd).toNat : Nat) : Int) ∧ f.pref = len ∧ frameUnloaded f ∧
    (1 + e.currentOrd).toNat < e'.stack.length ∧
    e' = { e with stack := e'.stack } ∧
    e'.stack = (growStack e.stack (1 + e.currentOrd).toNat).set (1 + e.currentOrd).toNat f := by
  unfold pushFrame at h
  dsimp only at h
  cases hrv : ({ bytes := frameData, pos := 0 } : ByteArrayDataInput).readVLong with
  | none =>
    rw [hrv] at h
    cases h
  | some pr =>
    obtain ⟨code, r1⟩ := pr
    rw [hrv] at h
    dsimp only at h
    cases hacq : frameAcq e.stack (1 + e.currentOrd).toNat with
    | panic m => rw [hacq] at h; cases h
    | goerr g => rw [hacq] at h; cases h
    | ok pr2 =>
      obtain ⟨f0, stack0⟩ := pr2
      rw [hacq] at h
      dsimp only at h
      obtain ⟨hlt, hget, hord0, hgrow⟩ := frameAcq_ok _ _ _ _ hacq
      have hgrown : StackGrown e.stack stack0 := by
        rw [hgrow]
        exact stackGrown_of_growStack _ _
      have hun0 : stackUnloadedWF stack0 := stackUnloadedWF_grown hun hgrown
      have hf0un : frameUnloaded f0 := by
        rw [← hget]
        exact hun0 _ hlt
      split at h
      · rename_i hfl
        have hwf := pushFrameAt_wf _ a _ len f e'
          (by dsimp only
              rw [List.length_set]
              exact hlt)
          (by dsimp only
              rw [listSet_getD, if_pos ⟨rfl, hlt⟩]
              rw [setFloorData_ord]
              exact hord0)
          (by dsimp only
              rw [listSet_getD, if_pos ⟨rfl, hlt⟩]
              have hsf := setFloorData_fields { f0 with
                hasTerms := (code &&& BTT_OUTPUT_FLAG_HAS_TERMS) ≠ 0,
                hasTermsOrig := (code &&& BTT_OUTPUT_FLAG_HAS_TERMS) ≠ 0,
                isFloor := (code &&& BTT_OUTPUT_FLAG_IS_FLOOR) ≠ 0 } r1.pos frameData
              exact frameUnloaded_of_eqs hf0un hsf.2.2.1 hsf.2.2.2.2.2.2.1
                hsf.2.2.2.2.2.2.2.1 hsf.2.1 hsf.2.2.2.2.2.2.2.2.1
                hsf.2.2.2.2.2.2.2.2.2.1)
          h
        obtain ⟨hw1, hw2, hw3, hw4⟩ := hwf
        subst hw4
        refine ⟨hw1, hw2, hw3, ?_, rfl, ?_⟩
        · dsimp only
          rw [List.length_set, List.length_set]
          exact hlt
        · show ((stack0.set (1 + e.currentOrd).toNat _).set (1 + e.currentOrd).toNat f) = _
          rw [List.set_set, hgrow]
      · rename_i hfl
        have hwf := pushFrameAt_wf _ a _ len f e'
          (by dsimp only
              rw [List.length_set]
              exact hlt)
          (by dsimp only
              rw [listSet_getD, if_pos ⟨rfl, hlt⟩]
              exact hord0)
          (by dsimp only
              rw [listSet_getD, if_pos ⟨rfl, hlt⟩]
              exact frameUnloaded_of_eqs hf0un rfl rfl rfl rfl rfl rfl)
          h
        obtain ⟨hw1, hw2, hw3, hw4⟩ := hwf
        subst hw4
        refine ⟨hw1, hw2, hw3, ?_, rfl, ?_⟩
        · dsimp only
          rw [List.length_set, List.length_set]
          exact hlt
        · show ((stack0.set (1 + e.currentOrd).toNat _).set (1 + e.currentOrd).toNat f) = _
          rw [List.set_set, hgrow]

theorem reuseLoop1_track (e : SegmentTermsEnum) (target : List Nat)
    (hord : stackOrdsWF e.stack) :
    ∀ (fuel : Nat) (arc : Arc) (output : List Nat) (u limit : Nat)
      (cmp' : Int) (arc' : Arc) (output' : List Nat) (lfOrd' : Int) (u' : Nat),
      reuseLoop1 e target 0 arc output ((countFinals e.arcs u : Nat) : Int) u limit fuel
        = .ok (cmp', arc', output', lfOrd', u') →
      u ≤ limit →
      lfOrd' = ((countFinals e.arcs u' : Nat) : Int) ∧ u ≤ u' ∧ u' ≤ limit ∧
        (cmp' = 0 → u' = limit) := by
  intro fuel
  induction fuel with
  | zero =>
    intro arc output u limit cmp' arc' output' lfOrd' u' h hu
    cases h
  | succ n ih =>
    intro arc output u limit cmp' arc' output' lfOrd' u' h hu
    unfold reuseLoop1 at h
    dsimp only at h
    by_cases h1 : u < limit
    case neg =>
      rw [if_neg h1] at h
      simp only [GoRes.ok.injEq, Prod.mk.injEq] at h
      obtain ⟨hc1, -, -, hc4, hc5⟩ := h
      subst hc1
      subst hc4
      subst hc5
      exact ⟨rfl, le_refl _, hu, fun _ => by omega⟩
    case pos =>
      rw [if_pos h1] at h
      by_cases h2 : u < e.term.length
      case neg =>
        rw [if_neg h2] at h
        cases h
      case pos =>
        rw [if_pos h2] at h
        by_cases h3 : ((e.term.getD u 0 : Int) - (target.getD u 0 : Int)) % 256 ≠ 0
        · rw [if_pos h3] at h
          simp only [GoRes.ok.injEq, Prod.mk.injEq] at h
          obtain ⟨hc1, -, -, hc4, hc5⟩ := h
          subst hc1
          subst hc4
          subst hc5
          exact ⟨rfl, le_refl _, by omega, fun hc => absurd hc h3⟩
        · rw [if_neg h3] at h
          push_neg at h3
          rw [h3] at h
          by_cases h4 : 1 + u < e.arcs.length
          case neg =>
            rw [if_neg h4] at h
            cases h
          case pos =>
            rw [if_pos h4] at h
            by_cases h5 : (e.arcs.getD (1 + u) zeroArc).Label ≠ (target.getD u 0 : Int)
            · rw [if_pos h5] at h
              cases h
            · rw [if_neg h5] at h
              cases hout : (e.arcs.getD (1 + u) zeroArc).Output with
              | none =>
                rw [hout] at h
                cases h
              | some outv =>
                rw [hout] at h
                dsimp only at h
                by_cases h6 : (e.arcs.getD (1 + u) zeroArc).IsFinal = true
                · rw [if_pos h6] at h
                  by_cases h7 : ((1 : Int) + ((countFinals e.arcs u : Nat) : Int) < 0 ∨
                      e.stack.length ≤ ((1 : Int) + ((countFinals e.arcs u : Nat) : Int)).toNat)
                  · rw [if_pos h7] at h
                    cases h
                  · rw [if_neg h7] at h
                    push_neg at h7
                    have hto : ((1 : Int) + ((countFinals e.arcs u : Nat) : Int)).toNat
                        = countFinals e.arcs u + 1 := by omega
                    have hb : countFinals e.arcs u + 1 < e.stack.length := by omega
                    have hlf : (e.stack.getD
                        (((1 : Int) + ((countFinals e.arcs u : Nat) : Int)).toNat)
                        (newFrame 0)).ord = ((countFinals e.arcs (u + 1) : Nat) : Int) := by
                      rw [hto, hord _ hb, countFinals_succ, if_pos h6]
                    rw [hlf] at h
                    have hr := ih _ _ (u + 1) limit _ _ _ _ _ h (by omega)
                    exact ⟨hr.1, by omega, hr.2.2.1, hr.2.2.2⟩
                · rw [if_neg h6] at h
                  have hcf : ((countFinals e.arcs u : Nat) : Int)
                      = ((countFinals e.arcs (u + 1) : Nat) : Int) := by
                    rw [countFinals_succ, if_neg h6]
                    omega
                  rw [hcf] at h
                  have hr := ih _ _ (u + 1) limit _ _ _ _ _ h (by omega)
                  exact ⟨hr.1, by omega, hr.2.2.1, hr.2.2.2⟩

theorem listGetD_take {α : Type} (l : List α) (n i : Nat) (d : α) (h : i < n) :
    (l.take n).getD i d = l.getD i d := by
  rw [List.getD_eq_getElem?_getD, List.getElem?_take, if_pos h, ← List.getD_eq_getElem?_getD]

theorem currentFrame_getD (e : SegmentTermsEnum) (h : 0 ≤ e.currentOrd) :
    e.currentFrame = e.stack.getD e.currentOrd.toNat (newFrame 0) := by
  unfold SegmentTermsEnum.currentFrame
  rw [if_neg (by omega)]

theorem descendWF_getArcs (e : SegmentTermsEnum) (u n : Nat) (h : descendWF e u) :
    descendWF { e with arcs := getArcs e.arcs n } u := by
  obtain ⟨h1, h2, h3, h4, h5, h6⟩ := h
  refine ⟨h1, h2, ?_, h4, ?_, ?_⟩
  · rw [countFinals_getArcs]
    exact h3
  · intro i hi
    obtain ⟨b1, b2, b3⟩ := h5 i hi
    refine ⟨lt_of_lt_of_le b1 (getArcs_length_ge _ _), b2, ?_⟩
    rw [getArcs_getD]
    exact b3
  · intro i hi
    obtain ⟨c1, c2, c3⟩ := h6 i hi
    rw [countFinals_getArcs]
    refine ⟨c1, c2, ?_⟩
    intro j hj1 hj2
    rw [getArcs_getD]
    exact c3 j hj1 hj2

theorem descendExit_wf (e : SegmentTermsEnum) (u : Nat) (T : List Nat)
    (hidx : ∀ g, e.index = some g → FSTWF g)
    (hD : descendWF e u)
    (hTlen : u ≤ T.length)
    (hTget : ∀ i, i < u → T.getD i 0 = e.term.getD i 0) :
    enumWF { e with
      validIndexPref := (e.stack.getD e.currentOrd.toNat (newFrame 0)).pref,
      stack := e.stack.set e.currentOrd.toNat
        (e.stack.getD e.currentOrd.toNat (newFrame 0)),
      termExists := false, term := T } := by
  obtain ⟨hso, hsu, hco, hulen, hcons, hch⟩ := hD
  have hτ : e.currentOrd.toNat = countFinals e.arcs u := by omega
  obtain ⟨hb, hp, hgap⟩ := hch u (le_refl u)
  rw [← hτ] at hb hp hgap
  refine ⟨hidx, ?_, ?_, ?_, ?_,
    Or.inr (show (0 : Int) ≤ e.currentOrd from by omega), ?_⟩
  · show (e.stack.getD e.currentOrd.toNat (newFrame 0)).pref ≤ T.length
    omega
  · intro i hi
    have hi2 : i < (e.stack.getD e.currentOrd.toNat (newFrame 0)).pref := hi
    obtain ⟨b1, b2, b3⟩ := hcons i (by omega)
    refine ⟨b1, show i < T.length from by omega, ?_⟩
    show (e.arcs.getD (1 + i) zeroArc).Label = ((T.getD i 0 : Nat) : Int)
    rw [hTget i (by omega)]
    exact b3
  · exact stackOrdsWF_set hso (hso _ hb)
  · exact stackUnloadedWF_set hsu (hsu _ hb)
  · intro hc
    refine ⟨?_, ?_, ?_, ?_⟩
    · show e.currentOrd.toNat < (e.stack.set _ _).length
      rw [List.length_set]
      exact hb
    · show ((e.stack.set e.currentOrd.toNat
        (e.stack.getD e.currentOrd.toNat (newFrame 0))).getD e.currentOrd.toNat
          (newFrame 0)).pref = _
      rw [listSet_getD_self]
    · have hcg := countFinals_gap e.arcs hp hgap
      show e.currentOrd = ((countFinals e.arcs
        (e.stack.getD e.currentOrd.toNat (newFrame 0)).pref : Nat) : Int)
      rw [← hcg]
      exact hco
    · intro i hi
      have hi2 : i ≤ (e.stack.getD e.currentOrd.toNat (newFrame 0)).pref := hi
      obtain ⟨c1, c2, c3⟩ := hch i (by omega)
      refine ⟨?_, ?_, ?_⟩
      · show countFinals e.arcs i < (e.stack.set _ _).length
        rw [List.length_set]
        exact c1
      · show ((e.stack.set _ _).getD (countFinals e.arcs i) (newFrame 0)).pref ≤ i
        rw [listSet_getD_self]
        exact c2
      · intro j hj1 hj2
        rw [listSet_getD_self] at hj1
        exact c3 j hj1 hj2

theorem arcsSet_getD_top (arcs : List Arc) (u : Nat) (a : Arc) :
    ((getArcs arcs (1 + u)).set (1 + u) a).getD (1 + u) zeroArc = a := by
  rw [listSet_getD, if_pos ⟨rfl, getArcs_length_gt _ _⟩]

theorem arcsSet_getD_ne (arcs : List Arc) (u : Nat) (a : Arc) (k : Nat) (hk : ¬ 1 + u = k) :
    ((getArcs arcs (1 + u)).set (1 + u) a).getD k zeroArc = arcs.getD k zeroArc := by
  rw [listSet_getD, if_neg (fun hc => hk hc.1), getArcs_getD]

theorem arcsSet_countFinals (arcs : List Arc) (u : Nat) (a : Arc) {v : Nat} (hv : v ≤ u) :
    countFinals ((getArcs arcs (1 + u)).set (1 + u) a) v = countFinals arcs v :=
  countFinals_congr _ _ _ (fun i hi => arcsSet_getD_ne arcs u a (1 + i) (by omega))

theorem arcsSet_countFinals_succ (arcs : List Arc) (u : Nat) (a : Arc) :
    countFinals ((getArcs arcs (1 + u)).set (1 + u) a) (u + 1) =
      countFinals arcs u + (if a.IsFinal then 1 else 0) := by
  rw [countFinals_succ, arcsSet_getD_top, arcsSet_countFinals arcs u a (le_refl u)]

theorem arcsSet_length (arcs : List Arc) (u : Nat) (a : Arc) :
    arcs.length ≤ ((getArcs arcs (1 + u)).set (1 + u) a).length ∧
    1 + u < ((getArcs arcs (1 + u)).set (1 + u) a).length := by
  rw [List.length_set]
  exact ⟨getArcs_length_ge _ _, getArcs_length_gt _ _⟩

theorem arcsTermStep (e : SegmentTermsEnum) (u : Nat) (nextArc : Arc) (lbl : Nat)
    (hcons : arcsTermConsistent e.arcs e.term u)
    (hterm : u < e.term.length)
    (hlb : nextArc.Label = (lbl : Int)) :
    arcsTermConsistent ((getArcs e.arcs (1 + u)).set (1 + u) nextArc)
      (e.term.set u lbl) (u + 1) := by
  intro i hi
  rcases Nat.lt_or_ge i u with hlt | hge
  · obtain ⟨b1, b2, b3⟩ := hcons i hlt
    refine ⟨lt_of_lt_of_le b1 (arcsSet_length e.arcs u nextArc).1, ?_, ?_⟩
    · rw [List.length_set]
      exact b2
    · rw [arcsSet_getD_ne e.arcs u nextArc (1 + i) (by omega),
        listSet_getD, if_neg (fun hc => by omega)]
      exact b3
  · have hi2 : i = u := by omega
    subst hi2
    refine ⟨(arcsSet_length e.arcs i nextArc).2, ?_, ?_⟩
    · rw [List.length_set]
      exact hterm
    · rw [arcsSet_getD_top, listSet_getD, if_pos ⟨rfl, hterm⟩]
      exact hlb

theorem descendStep_wf (e : SegmentTermsEnum) (u : Nat) (nextArc : Arc) (lbl : Nat)
    (hD : descendWF e u)
    (hterm : u < e.term.length)
    (hlb : nextArc.Label = (lbl : Int))
    (hfin : nextArc.IsFinal = false) :
    descendWF { e with arcs := (getArcs e.arcs (1 + u)).set (1 + u) nextArc,
                       term := e.term.set u lbl } (u + 1) := by
  obtain ⟨hso, hsu, hco, hulen, hcons, hch⟩ := hD
  refine ⟨hso, hsu, ?_, ?_, arcsTermStep e u nextArc lbl hcons hterm hlb, ?_⟩
  · show e.currentOrd = _
    rw [arcsSet_countFinals_succ, hfin]
    simpa using hco
  · show u + 1 ≤ (e.term.set u lbl).length
    rw [List.length_set]
    omega
  · intro i hi
    rcases Nat.lt_or_ge i (u + 1) with hlt | hge
    · have hi2 : i ≤ u := by omega
      obtain ⟨c1, c2, c3⟩ := hch i hi2
      rw [arcsSet_countFinals e.arcs u nextArc hi2]
      refine ⟨c1, c2, ?_⟩
      intro j hj1 hj2
      rw [arcsSet_getD_ne e.arcs u nextArc (1 + j) (by omega)]
      exact c3 j hj1 hj2
    · have hi2 : i = u + 1 := by omega
      subst hi2
      obtain ⟨c1, c2, c3⟩ := hch u (le_refl u)
      rw [arcsSet_countFinals_succ, hfin]
      simp only [Bool.false_eq_true, if_false, Nat.add_zero]
      refine ⟨c1, by omega, ?_⟩
      intro j hj1 hj2
      rcases Nat.lt_or_ge j u with hj3 | hj3
      · rw [arcsSet_getD_ne e.arcs u nextArc (1 + j) (by omega)]
        exact c3 j hj1 hj3
      · have hj4 : j = u := by omega
        subst hj4
        rw [arcsSet_getD_top]
        exact hfin

theorem descendStepFinal_wf (e : SegmentTermsEnum) (u : Nat) (nextArc : Arc) (lbl : Nat)
    (f : Frame) (s' : List Frame)
    (hD : descendWF e u)
    (hterm : u < e.term.length)
    (hlb : nextArc.Label = (lbl : Int))
    (hfin : nextArc.IsFinal = true)
    (hford : f.ord = ((countFinals e.arcs u + 1 : Nat) : Int))
    (hfpref : f.pref = u + 1)
    (hfun : frameUnloaded f)
    (hs' : s' = (growStack e.stack (countFinals e.arcs u + 1)).set
      (countFinals e.arcs u + 1) f)
    (hlen : countFinals e.arcs u + 1 < s'.length) :
    descendWF { e with arcs := (getArcs e.arcs (1 + u)).set (1 + u) nextArc,
                       term := e.term.set u lbl,
                       stack := s',
                       currentOrd := ((countFinals e.arcs u + 1 : Nat) : Int) } (u + 1) := by
  obtain ⟨hso, hsu, hco, hulen, hcons, hch⟩ := hD
  have hgrown : StackGrown e.stack (growStack e.stack (countFinals e.arcs u + 1)) :=
    stackGrown_of_growStack _ _
  have hlen2 : countFinals e.arcs u + 1 <
      (growStack e.stack (countFinals e.arcs u + 1)).length := by
    rw [growStack_length]
    omega
  refine ⟨?_, ?_, ?_, ?_, arcsTermStep e u nextArc lbl hcons hterm hlb, ?_⟩
  · show stackOrdsWF s'
    rw [hs']
    exact stackOrdsWF_set (stackOrdsWF_grown hso hgrown) hford
  · show stackUnloadedWF s'
    rw [hs']
    exact stackUnloadedWF_set (stackUnloadedWF_grown hsu hgrown) hfun
  · show ((countFinals e.arcs u + 1 : Nat) : Int) = _
    rw [arcsSet_countFinals_succ, hfin]
    simp
  · show u + 1 ≤ (e.term.set u lbl).length
    rw [List.length_set]
    omega
  · intro i hi
    rcases Nat.lt_or_ge i (u + 1) with hlt | hge
    · have hi2 : i ≤ u := by omega
      obtain ⟨c1, c2, c3⟩ := hch i hi2
      have hmono : countFinals e.arcs i ≤ countFinals e.arcs u := countFinals_le e.arcs hi2
      rw [arcsSet_countFinals e.arcs u nextArc hi2]
      have hgd : s'.getD (countFinals e.arcs i) (newFrame 0)
          = e.stack.getD (countFinals e.arcs i) (newFrame 0) := by
        rw [hs', listSet_getD, if_neg (fun hc => by
          obtain ⟨hc1, -⟩ := hc
          omega), growStack_getD_lt _ _ _ c1]
      refine ⟨show countFinals e.arcs i < s'.length from by omega, ?_, ?_⟩
      · rw [hgd]
        exact c2
      · intro j hj1 hj2
        rw [hgd] at hj1
        rw [arcsSet_getD_ne e.arcs u nextArc (1 + j) (by omega)]
        exact c3 j hj1 hj2
    · have hi2 : i = u + 1 := by omega
      subst hi2
      rw [arcsSet_countFinals_succ, hfin]
      simp only [if_true, Nat.add_zero]
      have hgd : s'.getD (countFinals e.arcs u + 1) (newFrame 0) = f := by
        rw [hs', listSet_getD, if_pos ⟨rfl, hlen2⟩]
      refine ⟨show countFinals e.arcs u + 1 < s'.length from by omega, ?_, ?_⟩
      · rw [hgd, hfpref]
      · intro j hj1 hj2
        rw [hgd, hfpref] at hj1
        omega

theorem descendLoop_wf (fst : FST) (target : List Nat) (hfst : FSTWF fst) :
    ∀ (fuel : Nat) (e : SegmentTermsEnum) (arc : Arc) (output : List Nat) (u : Nat)
      (tr : List SeekEvent) (b : Bool) (e' : SegmentTermsEnum) (tr' : List SeekEvent),
      descendLoop fst target fuel e arc output u tr = .ok (b, e', tr') →
      (∀ g, e.index = some g → FSTWF g) →
      descendWF e u →
      enumWF e' := by
  intro fuel
  induction fuel with
  | zero =>
    intro e arc output u tr b e' tr' h hidx hD
    cases h
  | succ n ih =>
    intro e arc output u tr b e' tr' h hidx hD
    have hco : e.currentOrd = ((countFinals e.arcs u : Nat) : Int) := hD.2.2.1
    have hulen : u ≤ e.term.length := hD.2.2.2.1
    have hpos : ¬ (e.currentOrd < 0) := by omega
    unfold descendLoop at h
    dsimp only at h
    by_cases hu1 : u < target.length
    case neg =>
      rw [if_neg hu1] at h
      simp only [SegmentTermsEnum.currentFrame] at h
      simp only [if_neg hpos] at h
      cases hsf : (e.stack.getD e.currentOrd.toNat (newFrame 0)).scanToFloorFrame target with
      | panic m => rw [hsf] at h; cases h
      | goerr g => rw [hsf] at h; cases h
      | ok cf2 =>
        have hcfeq := scanToFloorFrame_ok_eq _ _ _ hsf
        subst hcfeq
        rw [hsf] at h
        dsimp only at h
        simp only [listSet_getD_self] at h
        split at h
        · rename_i hht
          simp only [GoRes.ok.injEq, Prod.mk.injEq] at h
          obtain ⟨-, he', -⟩ := h
          subst he'
          exact descendExit_wf e u (e.term.take u) hidx hD
            (by rw [List.length_take]; omega)
            (fun i hi => listGetD_take _ _ _ _ (by omega))
        · rename_i hht
          exact absurd h (loadAndScan_not_ok _ target tr
            (stackUnloadedWF_set hD.2.1 (frameUnloaded_getD _ _ hD.2.1)) _)
    case pos =>
      rw [if_pos hu1] at h
      cases hfind : fst.findTargetArc (target.getD u 0) arc with
      | none =>
        rw [hfind] at h
        simp only [SegmentTermsEnum.currentFrame] at h
        simp only [if_neg hpos] at h
        cases hsf : (e.stack.getD e.currentOrd.toNat (newFrame 0)).scanToFloorFrame target with
        | panic m => rw [hsf] at h; cases h
        | goerr g => rw [hsf] at h; cases h
        | ok cf2 =>
          have hcfeq := scanToFloorFrame_ok_eq _ _ _ hsf
          subst hcfeq
          rw [hsf] at h
          dsimp only at h
          simp only [listSet_getD_self] at h
          split at h
          · rename_i hht
            simp only [GoRes.ok.injEq, Prod.mk.injEq] at h
            obtain ⟨-, he', -⟩ := h
            subst he'
            exact descendExit_wf { e with arcs := getArcs e.arcs (1 + u) } u
              (e.term ++ [target.getD u 0]) hidx (descendWF_getArcs e u (1 + u) hD)
              (by rw [List.length_append]; omega)
              (fun i hi => listGetD_append_left _ _ _ _ (by omega))
          · rename_i hht
            exact absurd h (loadAndScan_not_ok _ target tr
              (stackUnloadedWF_set hD.2.1 (frameUnloaded_getD _ _ hD.2.1)) _)
      | some nextArc =>
        rw [hfind] at h
        dsimp only at h
        have hlb : nextArc.Label = ((target.getD u 0 : Nat) : Int) := hfst _ _ _ hfind
        by_cases hu2 : u < e.term.length
        case neg =>
          rw [if_neg hu2] at h
          cases h
        case pos =>
          rw [if_pos hu2] at h
          cases hout : nextArc.Output with
          | none =>
            rw [hout] at h
            cases h
          | some outv =>
            rw [hout] at h
            dsimp only at h
            by_cases hfin : nextArc.IsFinal = true
            · rw [if_pos hfin] at h
              split at h
              · cases h
              · cases h
              · rename_i f e5 hpush
                obtain ⟨hw1, hw2, hw3, hw4, hw5, hw6⟩ :=
                  pushFrame_wf { e with
                      arcs := (getArcs e.arcs (1 + u)).set (1 + u) nextArc,
                      term := e.term.set u (target.getD u 0) }
                    true _ (u + 1) f e5 hD.2.1 hpush
                rw [hw6] at hw5
                subst hw5
                dsimp only at h hw1 hw4
                have hidx2 : ((1 : Int) + e.currentOrd).toNat
                    = countFinals e.arcs u + 1 := by omega
                rw [hidx2] at h hw1 hw4
                have hw1' : f.ord = ((countFinals e.arcs u + 1 : Nat) : Int) := hw1
                rw [hw1'] at h
                have hD6 := descendStepFinal_wf e u nextArc (target.getD u 0) f
                  ((growStack e.stack (countFinals e.arcs u + 1)).set
                    (countFinals e.arcs u + 1) f)
                  hD hu2 hlb hfin hw1' hw2 hw3 rfl hw4
                exact ih _ _ _ _ _ _ _ _ h hidx hD6
            · rw [if_neg hfin] at h
              have hD4 := descendStep_wf e u nextArc (target.getD u 0) hD hu2 hlb
                (by simpa using hfin)
              exact ih _ _ _ _ _ _ _ _ h hidx hD4

theorem seekFresh_wf (fst : FST) (e : SegmentTermsEnum) (target : List Nat) (b : Bool)
    (e' : SegmentTermsEnum) (tr : List SeekEvent)
    (hfst : FSTWF fst)
    (hidx : ∀ g, e.index = some g → FSTWF g)
    (hso : stackOrdsWF e.stack) (hsu : stackUnloadedWF e.stack)
    (h : seekFresh fst e target = .ok (b, e', tr)) :
    enumWF e' := by
  unfold seekFresh at h
  split at h
  · cases h
  · split at h
    · cases h
    · split at h
      · cases h
      · cases h
      · rename_i f e1 hpush
        obtain ⟨hw1, hw2, hw3, hw4, hw5, hw6⟩ :=
          pushFrame_wf
            { e with
              targetBeforeCurrentLength := -1
              arcs := e.arcs.set 0 fst.firstArcV
              currentOrd := staticFrame.ord }
            true _ 0 f e1 hsu hpush
        rw [hw6] at hw5
        subst hw5
        dsimp only at h hw1 hw4
        have hzero : ((1 : Int) + staticFrame.ord).toNat = 0 := rfl
        rw [hzero] at h hw1 hw4
        rw [hw1] at h
        refine descendLoop_wf fst target hfst _ _ _ _ _ _ _ _ _ h hidx ?_
        have hgrown : StackGrown e.stack (growStack e.stack 0) := stackGrown_of_growStack _ _
        have hlen0 : 0 < (growStack e.stack 0).length := by
          rw [growStack_length]
          omega
        refine ⟨?_, ?_, ?_, Nat.zero_le _, ?_, ?_⟩
        · exact stackOrdsWF_set (stackOrdsWF_grown hso hgrown) hw1
        · exact stackUnloadedWF_set (stackUnloadedWF_grown hsu hgrown) hw3
        · rfl
        · intro i hi
          exact absurd hi (by omega)
        · intro i hi
          have hi0 : i = 0 := by omega
          subst hi0
          refine ⟨?_, ?_, ?_⟩
          · show countFinals _ 0 < ((growStack e.stack 0).set 0 f).length
            rw [List.length_set]
            exact hlen0
          · show (((growStack e.stack 0).set 0 f).getD (countFinals _ 0) (newFrame 0)).pref ≤ 0
            rw [show countFinals ((e.arcs.set 0 fst.firstArcV)) 0 = 0 from rfl,
              listSet_getD, if_pos ⟨rfl, hlen0⟩, hw2]
          · intro j hj1 hj2
            exact absurd hj2 (by omega)

theorem reuseDescend_lt (fst : FST) (e : SegmentTermsEnum) (target : List Nat)
    (arc1 : Arc) (out1 : List Nat) (u1 : Nat) (b : Bool) (e' : SegmentTermsEnum)
    (tr : List SeekEvent) (hfst : FSTWF fst) (hidx : ∀ g, e.index = some g → FSTWF g)
    (hso : stackOrdsWF e.stack) (hsu : stackUnloadedWF e.stack)
    (hVlen : e.validIndexPref ≤ e.term.length)
    (hcons : arcsTermConsistent e.arcs e.term e.validIndexPref)
    (hch : chainInv e.arcs e.stack e.validIndexPref)
    (hu1V : u1 ≤ e.validIndexPref)
    (h : descendLoop fst target (target.length - u1 + 1)
      { e with currentOrd := ((countFinals e.arcs u1 : Nat) : Int) } arc1 out1 u1 []
      = .ok (b, e', tr)) : enumWF e' := by
  refine descendLoop_wf fst target hfst _ _ _ _ _ _ _ _ _ h hidx ?_
  refine ⟨hso, hsu, rfl, show u1 ≤ e.term.length from by omega, ?_, ?_⟩
  · intro i hi
    exact hcons i (by omega)
  · intro i hi
    exact hch i (by omega)

theorem reuseDescend_gt (fst : FST) (e : SegmentTermsEnum) (target : List Nat)
    (arc1 : Arc) (out1 : List Nat) (u1 : Nat) (b : Bool) (e' : SegmentTermsEnum)
    (tr : List SeekEvent) (hfst : FSTWF fst) (hidx : ∀ g, e.index = some g → FSTWF g)
    (hso : stackOrdsWF e.stack) (hsu : stackUnloadedWF e.stack)
    (hVlen : e.validIndexPref ≤ e.term.length)
    (hcons : arcsTermConsistent e.arcs e.term e.validIndexPref)
    (hch : chainInv e.arcs e.stack e.validIndexPref)
    (hu1V : u1 ≤ e.validIndexPref)
    (h : descendLoop fst target (target.length - u1 + 1)
      { e with targetBeforeCurrentLength := 0,
               currentOrd := ((countFinals e.arcs u1 : Nat) : Int),
               stack := e.stack.set (((countFinals e.arcs u1 : Nat) : Int)).toNat
                 ((e.stack.getD (((countFinals e.arcs u1 : Nat) : Int)).toNat
                   (newFrame 0)).rewind) }
      arc1 out1 u1 [] = .ok (b, e', tr)) : enumWF e' := by
  obtain ⟨d1, d2, d3⟩ := hch u1 hu1V
  refine descendLoop_wf fst target hfst _ _ _ _ _ _ _ _ _ h hidx ?_
  simp only [Int.toNat_natCast]
  refine ⟨?_, ?_, rfl, show u1 ≤ e.term.length from by omega, ?_, ?_⟩
  · refine stackOrdsWF_set hso ?_
    rw [(rewind_fields _).1]
    exact hso _ d1
  · exact stackUnloadedWF_set hsu (Or.inl (rewind_fields _).2.2.1)
  · intro i hi
    exact hcons i (by omega)
  · intro i hi
    obtain ⟨c1, c2, c3⟩ := hch i (by omega)
    have hgd : ((e.stack.set (countFinals e.arcs u1)
        ((e.stack.getD (countFinals e.arcs u1) (newFrame 0)).rewind)).getD
          (countFinals e.arcs i) (newFrame 0)).pref
        = (e.stack.getD (countFinals e.arcs i) (newFrame 0)).pref := by
      rw [listSet_getD]
      split
      · rename_i hcc
        rw [(rewind_fields _).2.1, hcc.1]
      · rfl
    refine ⟨?_, ?_, ?_⟩
    · show countFinals e.arcs i < (e.stack.set _ _).length
      rw [List.length_set]
      exact c1
    · rw [hgd]
      exact c2
    · intro j hj1 hj2
      rw [hgd] at hj1
      exact c3 j hj1 hj2

theorem seekReuse_wf (fst : FST) (e : SegmentTermsEnum) (target : List Nat) (b : Bool)
    (e' : SegmentTermsEnum) (tr : List SeekEvent)
    (hfst : FSTWF fst)
    (hidx : ∀ g, e.index = some g → FSTWF g)
    (hwf : enumWF e) (hc0 : 0 ≤ e.currentOrd)
    (h : seekReuse fst e target = .ok (b, e', tr)) :
    enumWF e' := by
  obtain ⟨hIdx, hVlen, hcons, hso, hsu, hdisj, himp⟩ := hwf
  obtain ⟨hb, hpref, hcnt, hch⟩ := himp hc0
  unfold seekReuse at h
  split at h
  · cases h
  · split at h
    · cases h
    · cases hout : (e.arcs.getD 0 zeroArc).Output with
      | none =>
        rw [hout] at h
        cases h
      | some out0 =>
        rw [hout] at h
        dsimp only at h
        split at h
        · cases h
        · split at h
          · cases h
          · cases hrl : reuseLoop1 e target 0 (e.arcs.getD 0 zeroArc) out0
                ((e.stack.getD 0 (newFrame 0)).ord) 0
                (min e.validIndexPref target.length)
                (min e.validIndexPref target.length + 1) with
            | panic m => rw [hrl] at h; cases h
            | goerr g => rw [hrl] at h; cases h
            | ok q =>
              obtain ⟨cmp1, arc1, out1, lfOrd1, u1⟩ := q
              rw [hrl] at h
              dsimp only at h
              have h00 : (e.stack.getD 0 (newFrame 0)).ord
                  = ((countFinals e.arcs 0 : Nat) : Int) := by
                have hz := hso 0 (by omega)
                simpa using hz
              rw [h00] at hrl
              have htr := reuseLoop1_track e target hso _ _ _ 0 _ _ _ _ _ _ hrl
                (Nat.zero_le _)
              obtain ⟨htr1, htr2, htr3, htr4⟩ := htr
              subst htr1
              have hu1V : u1 ≤ e.validIndexPref := by omega
              unfold seekReuseDecide at h
              by_cases hc1 : cmp1 = 0
              · rw [if_pos hc1] at h
                by_cases hx : (reuseLoop2 e.term target cmp1 u1
                    (min target.length e.term.length)
                    (min target.length e.term.length + 1)).1 = 0
                · rw [if_pos hx] at h
                  by_cases hs1 : ((e.term.length : Int) - (target.length : Int)) < 0
                  · rw [if_pos hs1] at h
                    exact reuseDescend_lt fst e target arc1 out1 u1 b e' tr hfst hidx
                      hso hsu hVlen hcons hch hu1V h
                  · rw [if_neg hs1] at h
                    by_cases hs2 : ((e.term.length : Int) - (target.length : Int)) > 0
                    · rw [if_pos hs2] at h
                      exact reuseDescend_gt fst e target arc1 out1 u1 b e' tr hfst hidx
                        hso hsu hVlen hcons hch hu1V h
                    · rw [if_neg hs2] at h
                      rw [if_neg (show ¬ (e.term.length ≠ target.length) from by omega)] at h
                      by_cases htex : e.termExists = true
                      · rw [if_pos htex] at h
                        simp only [GoRes.ok.injEq, Prod.mk.injEq] at h
                        obtain ⟨-, he', -⟩ := h
                        subst he'
                        exact ⟨hIdx, hVlen, hcons, hso, hsu, hdisj, himp⟩
                      · rw [if_neg htex] at h
                        have hulim := htr4 hc1
                        have hu1 : u1 = e.validIndexPref := by omega
                        refine descendLoop_wf fst target hfst _ _ _ _ _ _ _ _ _ h hidx ?_
                        refine ⟨hso, hsu, ?_, by omega, ?_, ?_⟩
                        · rw [hu1]
                          exact hcnt
                        · intro i hi
                          exact hcons i (by omega)
                        · intro i hi
                          exact hch i (by omega)
                · rw [if_neg hx] at h
                  by_cases hs1 : (reuseLoop2 e.term target cmp1 u1
                      (min target.length e.term.length)
                      (min target.length e.term.length + 1)).1 < 0
                  · rw [if_pos hs1] at h
                    exact reuseDescend_lt fst e target arc1 out1 u1 b e' tr hfst hidx
                      hso hsu hVlen hcons hch hu1V h
                  · rw [if_neg hs1] at h
                    by_cases hs2 : (reuseLoop2 e.term target cmp1 u1
                        (min target.length e.term.length)
                        (min target.length e.term.length + 1)).1 > 0
                    · rw [if_pos hs2] at h
                      exact reuseDescend_gt fst e target arc1 out1 u1 b e' tr hfst hidx
                        hso hsu hVlen hcons hch hu1V h
                    · exact absurd (show (reuseLoop2 e.term target cmp1 u1
                        (min target.length e.term.length)
                        (min target.length e.term.length + 1)).1 = 0 from by omega) hx
              · rw [if_neg hc1] at h
                by_cases hs1 : cmp1 < 0
                · rw [if_pos hs1] at h
                  exact reuseDescend_lt fst e target arc1 out1 u1 b e' tr hfst hidx
                    hso hsu hVlen hcons hch hu1V h
                · rw [if_neg hs1] at h
                  by_cases hs2 : cmp1 > 0
                  · rw [if_pos hs2] at h
                    exact reuseDescend_gt fst e target arc1 out1 u1 b e' tr hfst hidx
                      hso hsu hVlen hcons hch hu1V h
                  · exact absurd (show cmp1 = 0 from by omega) hc1

theorem currentFrame_neg (E : SegmentTermsEnum) (hE : E.currentOrd < 0) :
    E.currentFrame = staticFrame := by
  unfold SegmentTermsEnum.currentFrame
  rw [if_pos hE]

theorem seekExact_wf (e : SegmentTermsEnum) (target : List Nat) (b : Bool)
    (e' : SegmentTermsEnum) (tr : List SeekEvent)
    (hwf : enumWF e) (h : e.seekExact target = .ok (b, e', tr)) : enumWF e' := by
  unfold SegmentTermsEnum.seekExact at h
  cases hidx : e.index with
  | none =>
    rw [hidx] at h
    cases h
  | some fst =>
    rw [hidx] at h
    dsimp only at h
    have hfst : FSTWF fst := hwf.1 fst hidx
    have hwf0 : enumWF { e with index := some fst, eof := false } := by
      obtain ⟨w1, w2, w3, w4, w5, w6, w7⟩ := hwf
      refine ⟨?_, w2, w3, w4, w5, w6, w7⟩
      intro g hg
      apply w1 g
      rw [hidx]
      exact hg
    cases hpss : printSeekState { e with index := some fst, eof := false } with
    | panic m => rw [hpss] at h; cases h
    | goerr g => rw [hpss] at h; cases h
    | ok e2 =>
      rw [hpss] at h
      dsimp only at h
      have key : enumWF e2 ∧ (∀ g, e2.index = some g → FSTWF g) := by
        unfold printSeekState at hpss
        split at hpss
        · simp only [GoRes.ok.injEq] at hpss
          subst hpss
          exact ⟨hwf0, hwf0.1⟩
        · dsimp only at hpss
          obtain ⟨hpe, hpg⟩ := psLoop_ok _ _ _ _ _ _ hpss
          constructor
          · rw [hpe]
            exact enumWF_stack_grown hwf0 hpg
          · rw [hpe]
            exact hwf0.1
      obtain ⟨hwf2, hidx2⟩ := key
      split at h
      · rename_i hne
        rcases hwf2.2.2.2.2.2.1 with hm | hm
        · exact absurd (congrArg Frame.ord
            (currentFrame_neg _ (show e2.currentOrd < 0 from by omega))) hne
        · exact seekReuse_wf fst
            { e2 with targetBeforeCurrentLength := e2.currentFrame.ord }
            target b e' tr hfst hidx2 hwf2 hm h
      · exact seekFresh_wf fst
          { e2 with targetBeforeCurrentLength := e2.currentFrame.ord }
          target b e' tr hfst hidx2 hwf2.2.2.2.1 hwf2.2.2.2.2.1 h

/-- C9: the arc stack stays consistent with the term buffer.  The cursor
well-formedness `enumWF` — whose third conjunct is exactly the claimed
`arcs[1+i].label == term[i]` consistency over the valid index prefix —
holds of a freshly constructed cursor and is preserved by every
successful `SeekExact` call, so after every seek on a cursor built by
`newSegmentTermsEnum` (over a well-formed FST) the arc stack is
consistent with the term buffer. -/
theorem seekExact_preserves_arc_stack_consistency :
    (∀ (r : FieldReader) (timData : List Nat) (e : SegmentTermsEnum),
      (∀ fst, r.index = some fst → FSTWF fst) →
      newSegmentTermsEnum r timData = .ok e → enumWF e) ∧
    (∀ (e : SegmentTermsEnum) (target : List Nat) (b : Bool) (e' : SegmentTermsEnum)
      (tr : List SeekEvent),
      enumWF e → e.seekExact target = .ok (b, e', tr) →
      arcsConsistent e' ∧ enumWF e') := by
  constructor
  · intro r timData e hr h
    unfold newSegmentTermsEnum at h
    dsimp only at h
    cases hri : r.index with
    | none =>
      rw [hri] at h
      simp only [GoRes.ok.injEq] at h
      subst h
      refine ⟨?_, le_refl _, ?_, ?_, ?_, Or.inl rfl, ?_⟩
      · intro g hg
        exact Option.noConfusion (show (none : Option FST) = some g from hg)
      · intro i hi
        exact absurd (show i < 0 from hi) (by omega)
      · intro k hk
        exact absurd (show k < 0 from hk) (by omega)
      · intro k hk
        exact absurd (show k < 0 from hk) (by omega)
      · intro hcc
        exact absurd (show (0 : Int) ≤ -1 from hcc) (by decide)
    | some fst =>
      rw [hri] at h
      dsimp only at h
      split at h
      · cases h
      · simp only [GoRes.ok.injEq] at h
        subst h
        refine ⟨?_, le_refl _, ?_, ?_, ?_, Or.inl rfl, ?_⟩
        · intro g hg
          have hge : fst = g :=
            (Option.some.injEq fst g).mp (show some fst = some g from hg)
          subst hge
          exact hr fst hri
        · intro i hi
          exact absurd (show i < 0 from hi) (by omega)
        · intro k hk
          exact absurd (show k < 0 from hk) (by omega)
        · intro k hk
          exact absurd (show k < 0 from hk) (by omega)
        · intro hcc
          exact absurd (show (0 : Int) ≤ -1 from hcc) (by decide)
  · intro e target b e' tr hwf h
    have hw := seekExact_wf e target b e' tr hwf h
    exact ⟨hw.2.2.1, hw⟩

/-- Witness for C9: the freshly built cursor `enumPlain` is well-formed,
and after the concrete `SeekExact [97, 98]` run the arc stack is
consistent with the term buffer. -/
theorem seekExact_preserves_arc_stack_consistency_witness :
    newSegmentTermsEnum frPlain [] = .ok enumPlain ∧
    enumWF enumPlain ∧
    seekBool (enumPlain.seekExact [97, 98]) = some false ∧
    arcsConsistent (seekState emptySTE (enumPlain.seekExact [97, 98])) := by
  have hfst : ∀ fst, frPlain.index = some fst → FSTWF fst := by
    intro fst hf
    have hge : fstPlain = fst :=
      (Option.some.injEq fstPlain fst).mp (show some fstPlain = some fst from hf)
    subst hge
    intro node label a ha
    exact Option.noConfusion (show (none : Option Arc) = some a from ha)
  have hrun : newSegmentTermsEnum frPlain [] = .ok enumPlain := rfl
  have h1 := seekExact_preserves_arc_stack_consistency.1 frPlain [] enumPlain hfst hrun
  have hseek : enumPlain.seekExact [97, 98]
      = .ok (false, seekState emptySTE (enumPlain.seekExact [97, 98]),
        [SeekEvent.fastNotFound]) := rfl
  have h2 := seekExact_preserves_arc_stack_consistency.2 enumPlain [97, 98] false
    (seekState emptySTE (enumPlain.seekExact [97, 98])) [SeekEvent.fastNotFound] h1 hseek
  refine ⟨hrun, h1, ?_, h2.1⟩
  rw [hseek]
  rfl
